import Mathlib

/-!
# Verification of the feystaking amount engine and flow orchestrators

Shallow embedding of the staking interface's core logic:

* `src/utils/formatting.ts` — `sanitizeNumberInput`, `isValidNumberInput`,
  `parseTokenAmount` (via viem's `parseUnits`), `formatTokenAmount`
  (via viem's `formatUnits` and `Intl.NumberFormat`);
* `src/components/StakeFlow.tsx` — `handleAmountChange`,
  `handlePercentageChange`, `handleProceed` and the step-transition
  `useEffect`s with the `hasTriggeredStaking` one-shot guard;
* `src/components/UnstakeFlow.tsx` — `handleUnstake`.

Strings are embedded as `String`/`List Char`; JavaScript `bigint` as `ℤ`/`ℕ`.
JavaScript `number` (IEEE-754 double) is embedded as an exact fraction of
naturals (`Q2`) — exact where the source's doubles are exact on the values
the theorems touch; in `handlePercentageChange`, where double rounding is
observable, every arithmetic operation is followed by an explicit
round-to-nearest-even at 53-bit precision (`flQ`).
-/

namespace Fey

/-! ## List-of-characters infrastructure -/

/-- Characters kept by the sanitizer: decimal digits and the `.` separator. -/
def isDigitOrDot (c : Char) : Bool := c.isDigit || c == '.'

/-- Prepend a character to the first segment of a split result. -/
def consHead (x : Char) : List (List Char) → List (List Char)
  | [] => [[x]]
  | p :: ps => (x :: p) :: ps

/-- JavaScript `String.prototype.split` with a single-character separator. -/
def splitOnChar (c : Char) : List Char → List (List Char)
  | [] => [[]]
  | x :: xs => if x = c then [] :: splitOnChar c xs else consHead x (splitOnChar c xs)

theorem splitOnChar_ne_nil (c : Char) (l : List Char) : splitOnChar c l ≠ [] := by
  induction l with
  | nil => simp [splitOnChar]
  | cons x xs ih =>
    simp only [splitOnChar]
    by_cases hx : x = c
    · simp [hx]
    · rw [if_neg hx]
      cases h : splitOnChar c xs with
      | nil => simp [consHead]
      | cons p ps => simp [consHead]

theorem exists_cons_splitOnChar (c : Char) (l : List Char) :
    ∃ p ps, splitOnChar c l = p :: ps := by
  cases h : splitOnChar c l with
  | nil => exact absurd h (splitOnChar_ne_nil c l)
  | cons p ps => exact ⟨p, ps, rfl⟩

theorem length_splitOnChar (c : Char) (l : List Char) :
    (splitOnChar c l).length = l.count c + 1 := by
  induction l with
  | nil => simp [splitOnChar]
  | cons x xs ih =>
    simp only [splitOnChar, List.count_cons]
    by_cases hx : x = c
    · subst hx
      simp [ih]
    · rw [if_neg hx]
      obtain ⟨p, ps, h⟩ := exists_cons_splitOnChar c xs
      rw [h] at ih ⊢
      simp only [consHead, List.length_cons] at ih ⊢
      simp [ih, beq_iff_eq, hx]

theorem flatten_splitOnChar (c : Char) (l : List Char) :
    (splitOnChar c l).flatten = l.filter (fun x => x != c) := by
  induction l with
  | nil => simp [splitOnChar]
  | cons x xs ih =>
    simp only [splitOnChar, List.filter_cons]
    by_cases hx : x = c
    · subst hx
      simp [ih]
    · rw [if_neg hx]
      obtain ⟨p, ps, h⟩ := exists_cons_splitOnChar c xs
      rw [h] at ih ⊢
      simp only [consHead, List.flatten_cons, List.cons_append] at ih ⊢
      simp [hx, ih]

theorem not_mem_of_mem_splitOnChar (c : Char) (l : List Char) (p : List Char)
    (hp : p ∈ splitOnChar c l) : c ∉ p := by
  induction l generalizing p with
  | nil =>
    simp [splitOnChar] at hp
    simp [hp]
  | cons x xs ih =>
    simp only [splitOnChar] at hp
    by_cases hx : x = c
    · rw [if_pos hx] at hp
      rcases List.mem_cons.mp hp with h1 | h1
      · simp [h1]
      · exact ih p h1
    · rw [if_neg hx] at hp
      obtain ⟨q, qs, h⟩ := exists_cons_splitOnChar c xs
      rw [h] at hp
      simp only [consHead] at hp
      rcases List.mem_cons.mp hp with h1 | h1
      · subst h1
        intro hc
        rcases List.mem_cons.mp hc with h2 | h2
        · exact hx h2.symm
        · exact ih q (h ▸ List.mem_cons_self q qs) h2
      · exact ih p (h ▸ List.mem_cons.mpr (Or.inr h1))

theorem splitOnChar_of_not_mem (c : Char) (l : List Char) (h : c ∉ l) :
    splitOnChar c l = [l] := by
  induction l with
  | nil => simp [splitOnChar]
  | cons x xs ih =>
    simp only [splitOnChar]
    have hx : x ≠ c := fun hx => h (hx ▸ List.mem_cons_self x xs)
    rw [if_neg hx, ih (fun hc => h (List.mem_cons.mpr (Or.inr hc)))]
    rfl

theorem splitOnChar_append (c : Char) (a b : List Char) (h : c ∉ a) :
    splitOnChar c (a ++ c :: b) = a :: splitOnChar c b := by
  induction a with
  | nil =>
    simp [splitOnChar]
  | cons x xs ih =>
    have hx : x ≠ c := fun hx => h (hx ▸ List.mem_cons_self x xs)
    have hxs : c ∉ xs := fun hc => h (List.mem_cons.mpr (Or.inr hc))
    simp only [List.cons_append, splitOnChar, if_neg hx, List.append_eq, ih hxs]
    rfl

/-! ## The input sanitizer (`formatting.ts` : `sanitizeNumberInput`) -/

/-- The function `sanitizeNumberInput`, on the character list: strip everything but digits
and dots; if more than one dot survives, keep the first segment and
concatenate the remaining segments (`parts[0] + '.' + parts.slice(1).join('')`). -/
def sanitizeChars (l : List Char) : List Char :=
  let cleaned := l.filter isDigitOrDot
  let parts := splitOnChar '.' cleaned
  if 2 < parts.length then
    match parts with
    | [] => cleaned
    | p :: ps => p ++ '.' :: ps.flatten
  else cleaned

/-- Function `sanitizeNumberInput` from `src/utils/formatting.ts`. -/
def sanitizeNumberInput (s : String) : String := ⟨sanitizeChars s.data⟩

theorem count_filter_isDigitOrDot (l : List Char) :
    (l.filter isDigitOrDot).count '.' = l.count '.' := by
  induction l with
  | nil => rfl
  | cons x xs ih =>
    by_cases hx : x = '.'
    · subst hx
      simp [List.filter_cons, isDigitOrDot, List.count_cons, ih]
    · simp only [List.filter_cons, List.count_cons]
      by_cases hd : isDigitOrDot x = true
      · simp [hd, List.count_cons, ih, hx]
      · simp only [hd, Bool.false_eq_true, if_false, ih]
        simp [hx]

theorem count_flatten_parts (c : Char) (ps : List (List Char))
    (h : ∀ p ∈ ps, c ∉ p) : ps.flatten.count c = 0 := by
  rw [List.count_eq_zero]
  intro hc
  rcases List.mem_flatten.mp hc with ⟨p, hp, hcp⟩
  exact h p hp hcp

/-- Shape of the sanitizer's output when at least two dots survive stripping:
first segment, one dot, then the concatenation of the remaining segments. -/
theorem sanitizeChars_many_dots (l : List Char) (h : 2 ≤ l.count '.') :
    ∃ p ps, splitOnChar '.' (l.filter isDigitOrDot) = p :: ps ∧
      sanitizeChars l = p ++ '.' :: ps.flatten := by
  have hcount : (l.filter isDigitOrDot).count '.' = l.count '.' :=
    count_filter_isDigitOrDot l
  obtain ⟨p, ps, hp⟩ := exists_cons_splitOnChar '.' (l.filter isDigitOrDot)
  have hlen : 2 < (splitOnChar '.' (l.filter isDigitOrDot)).length := by
    rw [length_splitOnChar, hcount]
    omega
  refine ⟨p, ps, hp, ?_⟩
  simp only [sanitizeChars]
  rw [hp] at hlen ⊢
  simp only [if_pos hlen]

/-- The reassembled output `p ++ '.' :: ps.flatten` has exactly one dot when
`p :: ps` came out of a split on `'.'`. -/
theorem count_dot_reassembled (l p : List Char) (ps : List (List Char))
    (hsplit : splitOnChar '.' l = p :: ps) :
    (p ++ '.' :: ps.flatten).count '.' = 1 := by
  have hp : ('.' : Char) ∉ p :=
    not_mem_of_mem_splitOnChar '.' _ p (hsplit ▸ List.mem_cons_self p ps)
  have hps : ps.flatten.count '.' = 0 := by
    refine count_flatten_parts '.' ps (fun q hq => ?_)
    exact not_mem_of_mem_splitOnChar '.' _ q (hsplit ▸ List.mem_cons.mpr (Or.inr hq))
  rw [List.count_append, List.count_cons, List.count_eq_zero_of_not_mem hp, hps]
  simp

theorem count_dot_sanitizeChars_of_many (l : List Char) (h : 2 ≤ l.count '.') :
    (sanitizeChars l).count '.' = 1 := by
  obtain ⟨p, ps, hsplit, hout⟩ := sanitizeChars_many_dots l h
  rw [hout]
  exact count_dot_reassembled _ p ps hsplit

/-- Case split on the sanitizer's two output shapes. -/
theorem sanitizeChars_cases (l : List Char) :
    (l.filter isDigitOrDot).count '.' ≤ 1 ∧ sanitizeChars l = l.filter isDigitOrDot ∨
    ∃ p ps, splitOnChar '.' (l.filter isDigitOrDot) = p :: ps ∧
      sanitizeChars l = p ++ '.' :: ps.flatten := by
  by_cases h : 2 < (splitOnChar '.' (l.filter isDigitOrDot)).length
  · right
    obtain ⟨p, ps, hp⟩ := exists_cons_splitOnChar '.' (l.filter isDigitOrDot)
    refine ⟨p, ps, hp, ?_⟩
    simp only [sanitizeChars]
    rw [hp] at h ⊢
    simp only [if_pos h]
  · left
    refine ⟨?_, ?_⟩
    · have := length_splitOnChar '.' (l.filter isDigitOrDot)
      omega
    · simp only [sanitizeChars]
      rw [if_neg h]

theorem count_dot_sanitizeChars_le_one (l : List Char) :
    (sanitizeChars l).count '.' ≤ 1 := by
  rcases sanitizeChars_cases l with ⟨hc, hout⟩ | ⟨p, ps, hsplit, hout⟩
  · rw [hout]; exact hc
  · rw [hout, count_dot_reassembled _ p ps hsplit]

theorem mem_sanitizeChars_isDigitOrDot (l : List Char) (c : Char)
    (hc : c ∈ sanitizeChars l) : isDigitOrDot c = true := by
  rcases sanitizeChars_cases l with ⟨_, hout⟩ | ⟨p, ps, hsplit, hout⟩
  · rw [hout] at hc
    exact (List.mem_filter.mp hc).2
  · have hflat : ∀ d : Char, d ∈ (p :: ps).flatten → isDigitOrDot d = true := by
      intro d hd
      rw [← hsplit, flatten_splitOnChar] at hd
      exact (List.mem_filter.mp (List.mem_of_mem_filter hd)).2
    rw [hout] at hc
    rcases List.mem_append.mp hc with h1 | h1
    · exact hflat c (by rw [List.flatten_cons]; exact List.mem_append.mpr (Or.inl h1))
    · rcases List.mem_cons.mp h1 with h2 | h2
      · subst h2; decide
      · exact hflat c (by rw [List.flatten_cons]; exact List.mem_append.mpr (Or.inr h2))

/-- On an already-clean list (digits/dot only, at most one dot) the sanitizer
is the identity. -/
theorem sanitizeChars_of_clean (l : List Char)
    (h1 : ∀ c ∈ l, isDigitOrDot c = true) (h2 : l.count '.' ≤ 1) :
    sanitizeChars l = l := by
  have hfilter : l.filter isDigitOrDot = l := List.filter_eq_self.mpr h1
  have hlen : ¬ 2 < (splitOnChar '.' (l.filter isDigitOrDot)).length := by
    rw [length_splitOnChar, hfilter]
    omega
  simp only [sanitizeChars]
  rw [if_neg hlen, hfilter]

theorem sanitizeChars_idempotent (l : List Char) :
    sanitizeChars (sanitizeChars l) = sanitizeChars l :=
  sanitizeChars_of_clean _ (mem_sanitizeChars_isDigitOrDot l)
    (count_dot_sanitizeChars_le_one l)

/-- Claim C8. For every decimal string with more than one separator, the
sanitized string contains exactly one separator: everything but digits and
dots is stripped, the first separator is kept, and the digits after later
separators are concatenated after it. -/
theorem sanitize_many_separators_single_dot (s : String)
    (h : 2 ≤ s.data.count '.') :
    (sanitizeNumberInput s).data.count '.' = 1 ∧
    ∀ a b : List Char, s.data.filter isDigitOrDot = a ++ '.' :: b → '.' ∉ a →
      (sanitizeNumberInput s).data = a ++ '.' :: b.filter (fun x => x != '.') := by
  constructor
  · exact count_dot_sanitizeChars_of_many s.data h
  · intro a b hab ha
    show sanitizeChars s.data = _
    have hcount : (s.data.filter isDigitOrDot).count '.' = s.data.count '.' :=
      count_filter_isDigitOrDot s.data
    have hsplit : splitOnChar '.' (s.data.filter isDigitOrDot) =
        a :: splitOnChar '.' b := by
      rw [hab]
      exact splitOnChar_append '.' a b ha
    have hlen : 2 < (splitOnChar '.' (s.data.filter isDigitOrDot)).length := by
      rw [length_splitOnChar, hcount]
      omega
    simp only [sanitizeChars]
    rw [hsplit] at hlen ⊢
    simp only [if_pos hlen]
    rw [flatten_splitOnChar]

/-- Witness for C8 at the concrete input `"1a.2.3"`. -/
theorem sanitize_many_separators_single_dot_witness :
    (2 ≤ ("1a.2.3" : String).data.count '.') ∧
    (sanitizeNumberInput ("1a.2.3")).data.count '.' = 1 ∧
    (sanitizeNumberInput ("1a.2.3")).data = "1.23".data :=
  ⟨by decide, (sanitize_many_separators_single_dot ("1a.2.3") (by decide)).1,
    (sanitize_many_separators_single_dot ("1a.2.3") (by decide)).2
      ("1").data ("2.3").data (by decide) (by decide)⟩

/-- Claim C10. The sanitizer is idempotent for arbitrary input, and its output
always consists of digits and at most one dot. -/
theorem sanitize_idempotent_and_charset (s : String) :
    sanitizeNumberInput (sanitizeNumberInput s) = sanitizeNumberInput s ∧
    (∀ c ∈ (sanitizeNumberInput s).data, c.isDigit ∨ c = '.') ∧
    (sanitizeNumberInput s).data.count '.' ≤ 1 := by
  refine ⟨?_, ?_, count_dot_sanitizeChars_le_one s.data⟩
  · show (⟨sanitizeChars (sanitizeChars s.data)⟩ : String) = ⟨sanitizeChars s.data⟩
    rw [sanitizeChars_idempotent]
  · intro c hc
    have := mem_sanitizeChars_isDigitOrDot s.data c hc
    simp only [isDigitOrDot, Bool.or_eq_true, beq_iff_eq] at this
    exact this

/-- Witness for C10 at the concrete input `"x1.2.3y"`. -/
theorem sanitize_idempotent_and_charset_witness :
    sanitizeNumberInput (sanitizeNumberInput ("x1.2.3y")) = sanitizeNumberInput ("x1.2.3y") ∧
    (sanitizeNumberInput ("x1.2.3y")).data.count '.' ≤ 1 :=
  ⟨(sanitize_idempotent_and_charset ("x1.2.3y")).1,
    (sanitize_idempotent_and_charset ("x1.2.3y")).2.2⟩

/-! ## Decimal digit strings -/

/-- Numeric value of a digit string, as JavaScript's `BigInt(string)` reads
one (most significant digit first). -/
def charsToNat (l : List Char) : ℕ :=
  l.foldl (fun a c => 10 * a + (c.toNat - 48)) 0

/-- Decimal rendering of a natural number (auxiliary, fuel-based so that the
kernel can evaluate it). -/
def natToCharsAux : ℕ → ℕ → List Char
  | 0, _ => []
  | fuel + 1, n =>
    if n = 0 then [] else natToCharsAux fuel (n / 10) ++ [Char.ofNat (48 + n % 10)]

/-- Decimal rendering of a natural number, as JavaScript's
`Number.prototype.toString` / `BigInt.prototype.toString` produce it. -/
def natToChars (n : ℕ) : List Char :=
  if n = 0 then ['0'] else natToCharsAux n n

theorem charsToNat_step (v : ℕ) (l : List Char) :
    l.foldl (fun a c => 10 * a + (c.toNat - 48)) v =
      v * 10 ^ l.length + charsToNat l := by
  induction l generalizing v with
  | nil => simp [charsToNat]
  | cons c cs ih =>
    rw [charsToNat, List.foldl_cons, List.foldl_cons, ih, ih (10 * 0 + (c.toNat - 48))]
    simp only [List.length_cons, pow_succ]
    ring

theorem charsToNat_append (a b : List Char) :
    charsToNat (a ++ b) = charsToNat a * 10 ^ b.length + charsToNat b := by
  rw [charsToNat, List.foldl_append, charsToNat_step]
  rfl

theorem charsToNat_replicate_zero (k : ℕ) :
    charsToNat (List.replicate k '0') = 0 := by
  induction k with
  | zero => rfl
  | succ n ih =>
    rw [List.replicate_succ]
    show charsToNat ('0' :: List.replicate n '0') = 0
    rw [charsToNat, List.foldl_cons]
    show List.foldl _ 0 (List.replicate n '0') = 0
    exact ih

theorem toNat_char_ofNat_digit (d : ℕ) (hd : d < 10) :
    (Char.ofNat (48 + d)).toNat = 48 + d := by
  interval_cases d <;> decide

theorem isDigit_char_ofNat_digit (d : ℕ) (hd : d < 10) :
    (Char.ofNat (48 + d)).isDigit = true := by
  interval_cases d <;> decide

theorem charsToNat_natToCharsAux (fuel n : ℕ) (h : n ≤ fuel) :
    charsToNat (natToCharsAux fuel n) = n := by
  induction fuel generalizing n with
  | zero =>
    interval_cases n
    rfl
  | succ fuel ih =>
    rw [natToCharsAux]
    by_cases hn : n = 0
    · simp [hn, charsToNat]
    · rw [if_neg hn, charsToNat_append, ih (n / 10) (by omega)]
      have h10 : n % 10 < 10 := Nat.mod_lt n (by omega)
      simp only [List.length_cons, List.length_nil, pow_one, pow_zero]
      rw [charsToNat, List.foldl_cons]
      simp only [List.foldl_nil]
      rw [toNat_char_ofNat_digit (n % 10) h10]
      omega

/-- Round trip: `BigInt(n.toString()) = n`. -/
theorem charsToNat_natToChars (n : ℕ) : charsToNat (natToChars n) = n := by
  rw [natToChars]
  by_cases hn : n = 0
  · simp [hn, charsToNat]
  · rw [if_neg hn]
    exact charsToNat_natToCharsAux n n le_rfl

theorem mem_natToCharsAux_isDigit (fuel n : ℕ) (c : Char)
    (hc : c ∈ natToCharsAux fuel n) : c.isDigit = true := by
  induction fuel generalizing n with
  | zero => simp [natToCharsAux] at hc
  | succ fuel ih =>
    rw [natToCharsAux] at hc
    by_cases hn : n = 0
    · simp [hn] at hc
    · rw [if_neg hn] at hc
      rcases List.mem_append.mp hc with h1 | h1
      · exact ih (n / 10) h1
      · have h10 : n % 10 < 10 := Nat.mod_lt n (by omega)
        rcases List.mem_singleton.mp h1 with rfl
        exact isDigit_char_ofNat_digit (n % 10) h10

theorem mem_natToChars_isDigit (n : ℕ) (c : Char) (hc : c ∈ natToChars n) :
    c.isDigit = true := by
  rw [natToChars] at hc
  by_cases hn : n = 0
  · rw [if_pos hn] at hc
    rcases List.mem_singleton.mp hc with rfl
    decide
  · rw [if_neg hn] at hc
    exact mem_natToCharsAux_isDigit n n c hc

theorem natToChars_ne_nil (n : ℕ) : natToChars n ≠ [] := by
  rw [natToChars]
  by_cases hn : n = 0
  · simp [hn]
  · rw [if_neg hn]
    cases n with
    | zero => exact absurd rfl hn
    | succ m =>
      rw [natToCharsAux]
      simp

theorem length_natToCharsAux_le (fuel n k : ℕ) (h : n < 10 ^ k) :
    (natToCharsAux fuel n).length ≤ k := by
  induction fuel generalizing n k with
  | zero => simp [natToCharsAux]
  | succ fuel ih =>
    rw [natToCharsAux]
    by_cases hn : n = 0
    · simp [hn]
    · rw [if_neg hn]
      cases k with
      | zero =>
        interval_cases n
        exact absurd rfl hn
      | succ k =>
        have : n / 10 < 10 ^ k := by
          rw [Nat.div_lt_iff_lt_mul (by norm_num)]
          calc n < 10 ^ (k + 1) := h
          _ = 10 ^ k * 10 := by ring
        have := ih (n / 10) k this
        simp only [List.length_append, List.length_cons, List.length_nil]
        omega

theorem length_natToChars_le (n k : ℕ) (h1 : 1 ≤ k) (h2 : n < 10 ^ k) :
    (natToChars n).length ≤ k := by
  rw [natToChars]
  by_cases hn : n = 0
  · simp [hn]; omega
  · rw [if_neg hn]
    exact length_natToCharsAux_le n n k h2

theorem isDigit_toNat_bounds (c : Char) (hc : c.isDigit = true) :
    48 ≤ c.toNat ∧ c.toNat ≤ 57 := by
  simp only [Char.isDigit, Bool.and_eq_true, decide_eq_true_eq, ge_iff_le] at hc
  obtain ⟨h1, h2⟩ := hc
  exact ⟨UInt32.le_toNat_of_le (by norm_num) h1, UInt32.toNat_le_of_le (by norm_num) h2⟩

theorem charsToNat_lt (l : List Char) (h : ∀ c ∈ l, c.isDigit = true) :
    charsToNat l < 10 ^ l.length := by
  have aux : ∀ (m : List Char) (v : ℕ), (∀ c ∈ m, c.isDigit = true) →
      m.foldl (fun a c => 10 * a + (c.toNat - 48)) v < (v + 1) * 10 ^ m.length := by
    intro m
    induction m with
    | nil => intro v _; simp
    | cons c cs ih =>
      intro v hm
      rw [List.foldl_cons]
      have hc : c.isDigit = true := hm c (List.mem_cons_self c cs)
      have hc9 : c.toNat - 48 ≤ 9 := by
        have := isDigit_toNat_bounds c hc
        omega
      calc cs.foldl (fun a c => 10 * a + (c.toNat - 48)) (10 * v + (c.toNat - 48))
          < (10 * v + (c.toNat - 48) + 1) * 10 ^ cs.length :=
            ih _ (fun d hd => hm d (List.mem_cons.mpr (Or.inr hd)))
        _ ≤ ((v + 1) * 10) * 10 ^ cs.length := by
            have : 10 * v + (c.toNat - 48) + 1 ≤ (v + 1) * 10 := by omega
            exact Nat.mul_le_mul_right _ this
        _ = (v + 1) * 10 ^ (c :: cs).length := by
            rw [List.length_cons]
            ring
  have := aux l 0 h
  simpa [charsToNat] using this

/-! ## JavaScript `Number(string)` conversion (NaN test)

`parseTokenAmount` guards on `isNaN(Number(value))`; we embed the
`StringNumericLiteral` grammar of ECMA-262 `ToNumber` as a recognizer.
(Of the whitespace set only the common ASCII members plus NBSP and the BOM
are listed; other Unicode space characters never appear in the inputs the
theorems touch.) -/

def isJsWhitespace (c : Char) : Bool :=
  c == ' ' || c == '\t' || c == '\n' || c == '\r' ||
    c.toNat == 11 || c.toNat == 12 || c.toNat == 0xA0 || c.toNat == 0xFEFF

def trimJsWs (l : List Char) : List Char :=
  ((l.dropWhile isJsWhitespace).reverse.dropWhile isJsWhitespace).reverse

/-- An `ExponentPart?` at the end of a decimal literal. -/
def expTailOk : List Char → Bool
  | [] => true
  | c :: r =>
    if c == 'e' || c == 'E' then
      match r with
      | '+' :: d => !d.isEmpty && d.all (·.isDigit)
      | '-' :: d => !d.isEmpty && d.all (·.isDigit)
      | d => !d.isEmpty && d.all (·.isDigit)
    else false

/-- Unsigned `StrUnsignedDecimalLiteral` (without `Infinity`). -/
def decimalLitOk (l : List Char) : Bool :=
  let d1 := l.takeWhile (·.isDigit)
  let r1 := l.dropWhile (·.isDigit)
  match r1 with
  | '.' :: r2 =>
    let d2 := r2.takeWhile (·.isDigit)
    let r3 := r2.dropWhile (·.isDigit)
    (!d1.isEmpty || !d2.isEmpty) && expTailOk r3
  | _ => !d1.isEmpty && expTailOk r1

def isHexDigitChar (c : Char) : Bool :=
  c.isDigit || (('a' ≤ c) && (c ≤ 'f')) || (('A' ≤ c) && (c ≤ 'F'))

def isOctDigitChar (c : Char) : Bool := ('0' ≤ c) && (c ≤ '7')

def isBinDigitChar (c : Char) : Bool := c == '0' || c == '1'

/-- Whether `Number(s)` is not `NaN`. -/
def jsNumberValid (s : String) : Bool :=
  let t := trimJsWs s.data
  if t.isEmpty then true
  else if t.head? == some '0' && (t.tail.head? == some 'x' || t.tail.head? == some 'X') then
    !t.tail.tail.isEmpty && t.tail.tail.all isHexDigitChar
  else if t.head? == some '0' && (t.tail.head? == some 'o' || t.tail.head? == some 'O') then
    !t.tail.tail.isEmpty && t.tail.tail.all isOctDigitChar
  else if t.head? == some '0' && (t.tail.head? == some 'b' || t.tail.head? == some 'B') then
    !t.tail.tail.isEmpty && t.tail.tail.all isBinDigitChar
  else
    let u := if t.head? == some '+' || t.head? == some '-' then t.tail else t
    u == "Infinity".data || decimalLitOk u

/-! ## viem's `parseUnits` / the repo's `parseTokenAmount` -/

def stripTrailingZeros (l : List Char) : List Char :=
  (l.reverse.dropWhile (· == '0')).reverse

def padEndZeros (k : ℕ) (l : List Char) : List Char :=
  l ++ List.replicate (k - l.length) '0'

def padStartZeros (k : ℕ) (l : List Char) : List Char :=
  List.replicate (k - l.length) '0' ++ l

/-- viem's input guard `/^(-?)([0-9]*)\.?([0-9]*)$/`. -/
def viemRegexOk (l : List Char) : Bool :=
  let u := if l.head? == some '-' then l.tail else l
  match u.dropWhile (·.isDigit) with
  | [] => true
  | '.' :: r2 => r2.all (·.isDigit)
  | _ => false

/-- viem `parseUnits(value, decimals)`: `none` models a thrown error.
`charsToNat` plays `BigInt(string)`; the two rounding branches compare
`2 * fraction-value` with `10 ^ length` in place of
`Math.round(Number('.' + fraction))` (round half up of a non-negative
decimal below 10). -/
def parseUnits (l : List Char) (decimals : ℕ) : Option ℤ :=
  if !viemRegexOk l then none
  else
    let parts := splitOnChar '.' l
    let integer0 := parts.headD []
    let fraction0 := match parts with
      | _ :: f :: _ => f
      | _ => ['0']
    let negative := integer0.head? == some '-'
    let integer1 := if negative then integer0.tail else integer0
    let fraction1 := stripTrailingZeros fraction0
    let mag : ℕ :=
      if decimals = 0 then
        charsToNat integer1 +
          (if 10 ^ fraction1.length ≤ 2 * charsToNat fraction1 then 1 else 0)
      else if decimals < fraction1.length then
        let left := fraction1.take (decimals - 1)
        let unit := charsToNat ((fraction1.drop (decimals - 1)).take 1)
        let right := fraction1.drop decimals
        let rounded := unit +
          (if 10 ^ right.length ≤ 2 * charsToNat right then 1 else 0)
        let fraction2 :=
          if 9 < rounded then
            padStartZeros (left.length + 1) (natToChars (charsToNat left + 1) ++ ['0'])
          else left ++ natToChars rounded
        let p :=
          if decimals < fraction2.length then
            (natToChars (charsToNat integer1 + 1), fraction2.tail)
          else (integer1, fraction2)
        charsToNat (p.1 ++ p.2.take decimals)
      else charsToNat (integer1 ++ padEndZeros decimals fraction1)
    some (if negative then -(mag : ℤ) else (mag : ℤ))

/-- Function `parseTokenAmount` from `src/utils/formatting.ts`: empty or `NaN` input
gives `0n`; a `parseUnits` throw is caught and gives `0n`. -/
def parseTokenAmount (value : String) (decimals : ℕ := 18) : ℤ :=
  if value.data.isEmpty then 0
  else if !jsNumberValid value then 0
  else match parseUnits value.data decimals with
    | some n => n
    | none => 0

/-- Claim C9, counterexample. `"-5"` is not a valid non-negative decimal, yet
`parseTokenAmount` does not return zero on it: it returns `-5n * 10n**18n`
(viem's `parseUnits` accepts a leading minus sign). -/
theorem parseTokenAmount_neg_input_nonzero :
    parseTokenAmount ("-5") 18 = -(5 * 10 ^ 18) ∧
    (-(5 * 10 ^ 18) : ℤ) ≠ 0 := by
  constructor
  · decide
  · decide

/-- Claim C9, amended. `parseTokenAmount` is total (it returns an integer for
every input, modelling the `try/catch`), and returns zero whenever the text
is empty or not a valid decimal number in JavaScript `Number` syntax; a valid
*negative* decimal, however, is parsed to the corresponding negative amount
rather than rejected. -/
theorem parseTokenAmount_zero_on_invalid (s : String)
    (h : s.data.isEmpty = true ∨ jsNumberValid s = false) :
    parseTokenAmount s 18 = 0 := by
  rcases h with h | h
  · simp [parseTokenAmount, h]
  · by_cases he : s.data.isEmpty
    · simp [parseTokenAmount, he]
    · simp [parseTokenAmount, he, h]

/-- Witness for C9 at the concrete input `"abc"`. -/
theorem parseTokenAmount_zero_on_invalid_witness :
    (("abc" : String).data.isEmpty = true ∨ jsNumberValid ("abc") = false) ∧
    parseTokenAmount ("abc") 18 = 0 :=
  ⟨Or.inr (by decide),
    parseTokenAmount_zero_on_invalid ("abc") (Or.inr (by decide))⟩

/-! ## `formatTokenAmount` (`formatting.ts`)

The source computes `number = parseFloat(formatUnits(value, decimals))` and
branches on `number === 0` and `number < 0.0001`, then renders through
`Intl.NumberFormat('en-US', { minimumFractionDigits, maximumFractionDigits })`.
`formatUnits` produces the exact decimal string of `value / 10^decimals`, so
`number` is that rational rounded to a double; for the integer base-unit
inputs considered here the two comparisons agree with the exact rational ones
(the nearest double to `value / 10^decimals` is on the same side of `0` and
of `0.0001`, the integer grid being far coarser than half an ulp), so the
branches are embedded as exact rational comparisons, cross-multiplied into ℕ
arithmetic. -/

/-- The `en-US` digit grouping: commas every three digits, built from the least
significant end (input reversed). -/
def commasRev : List Char → List Char
  | [] => []
  | [a] => [a]
  | [a, b] => [a, b]
  | [a, b, c] => [a, b, c]
  | a :: b :: c :: rest => a :: b :: c :: ',' :: commasRev rest

def groupDigits (l : List Char) : List Char := (commasRev l.reverse).reverse

/-- Model of `Intl.NumberFormat` (`en-US`, fraction digits pinned to `d`) applied to
the non-negative rational `num / 10^decimals`: round half-away-from-zero to
`d` fraction digits, group the integer part, pad the fraction part. -/
def intlFormat (num decimals d : ℕ) : List Char :=
  let n := (2 * num * 10 ^ d + 10 ^ decimals) / (2 * 10 ^ decimals)
  if d = 0 then groupDigits (natToChars n)
  else
    groupDigits (natToChars (n / 10 ^ d)) ++
      '.' :: padStartZeros d (natToChars (n % 10 ^ d))

/-- Function `formatTokenAmount` from `src/utils/formatting.ts`. -/
def formatTokenAmount (value : ℤ) (decimals : ℕ := 18) (displayDecimals : ℕ := 4) :
    String :=
  if value = 0 then "0.0000"
  else if value * 10 ^ 4 < 10 ^ decimals then "< 0.0001"
  else ⟨intlFormat value.toNat decimals displayDecimals⟩

/-- Function `formatFeyAmount` from `src/utils/formatting.ts` (`FEY_DECIMALS = 18`). -/
def formatFeyAmount (value : ℤ) (displayDecimals : ℕ := 4) : String :=
  formatTokenAmount value 18 displayDecimals

/-- Claim C7, counterexample. At 3 base units the formatter returns
`"< 0.0001"` — with a space after `<` — not the exact string `"<0.0001"`
the claim states. -/
theorem formatTokenAmount_small_string_has_space :
    formatTokenAmount 3 18 4 = "< 0.0001" ∧
    formatTokenAmount 3 18 4 ≠ "<0.0001" := by
  constructor
  · decide
  · decide

/-- Claim C7, amended. Exact zero renders as `"0.0000"`; any positive amount
below `10^14` base units (i.e. below `10^(decimals-4)` at the default 18
decimals) renders as the exact string `"< 0.0001"` (with a space); in
particular 3 base units renders as `"< 0.0001"`. -/
theorem formatTokenAmount_zero_and_small (v : ℤ) (h0 : 0 < v)
    (h14 : v < 10 ^ 14) :
    formatTokenAmount 0 18 4 = "0.0000" ∧
    formatTokenAmount v 18 4 = "< 0.0001" ∧
    formatTokenAmount 3 18 4 = "< 0.0001" := by
  refine ⟨by decide, ?_, by decide⟩
  have hne : v ≠ 0 := by omega
  have hlt : v * 10 ^ 4 < 10 ^ 18 := by
    calc v * 10 ^ 4 < 10 ^ 14 * 10 ^ 4 := by
          exact mul_lt_mul_of_pos_right h14 (by norm_num)
    _ = 10 ^ 18 := by norm_num
  unfold formatTokenAmount
  rw [if_neg hne, if_pos hlt]

/-- Witness for C7 at `v = 7` base units. -/
theorem formatTokenAmount_zero_and_small_witness :
    (0 : ℤ) < 7 ∧ (7 : ℤ) < 10 ^ 14 ∧ formatTokenAmount 7 18 4 = "< 0.0001" :=
  ⟨by decide, by decide,
    (formatTokenAmount_zero_and_small 7 (by decide) (by decide)).2.1⟩

/-! ## Parsing canonical digit strings -/

theorem char_ne_of_toNat_ne {c d : Char} (h : c.toNat ≠ d.toNat) : c ≠ d :=
  fun he => h (he ▸ rfl)

theorem isDigitOrDot_toNat_bounds (c : Char) (h : isDigitOrDot c = true) :
    46 ≤ c.toNat ∧ c.toNat ≤ 57 ∧ c.toNat ≠ 47 := by
  rcases Bool.or_eq_true_iff.mp h with h1 | h1
  · have := isDigit_toNat_bounds c h1
    omega
  · have : c = '.' := beq_iff_eq.mp h1
    subst this
    decide

theorem isJsWhitespace_eq_false_of_digitOrDot (c : Char)
    (h : isDigitOrDot c = true) : isJsWhitespace c = false := by
  have hb := isDigitOrDot_toNat_bounds c h
  have e1 : (' ' : Char).toNat = 32 := by decide
  have e2 : ('\t' : Char).toNat = 9 := by decide
  have e3 : ('\n' : Char).toNat = 10 := by decide
  have e4 : ('\r' : Char).toNat = 13 := by decide
  simp only [isJsWhitespace, Bool.or_eq_false_iff, beq_eq_false_iff_ne, ne_eq]
  refine ⟨⟨⟨⟨⟨⟨⟨?_, ?_⟩, ?_⟩, ?_⟩, ?_⟩, ?_⟩, ?_⟩, ?_⟩
  · exact char_ne_of_toNat_ne (by omega)
  · exact char_ne_of_toNat_ne (by omega)
  · exact char_ne_of_toNat_ne (by omega)
  · exact char_ne_of_toNat_ne (by omega)
  · omega
  · omega
  · omega
  · omega

theorem dropWhile_eq_self_of_all_false {p : Char → Bool} (l : List Char)
    (h : ∀ c ∈ l, p c = false) : l.dropWhile p = l := by
  cases l with
  | nil => rfl
  | cons c cs =>
    rw [List.dropWhile_cons, h c (List.mem_cons_self c cs)]
    simp

theorem trimJsWs_eq_self (l : List Char)
    (h : ∀ c ∈ l, isJsWhitespace c = false) : trimJsWs l = l := by
  unfold trimJsWs
  rw [dropWhile_eq_self_of_all_false l h,
    dropWhile_eq_self_of_all_false l.reverse (fun c hc => h c (List.mem_reverse.mp hc)),
    List.reverse_reverse]

theorem takeWhile_append_all {p : Char → Bool} (a r : List Char)
    (h : ∀ c ∈ a, p c = true) : (a ++ r).takeWhile p = a ++ r.takeWhile p := by
  induction a with
  | nil => simp
  | cons c cs ih =>
    rw [List.cons_append, List.takeWhile_cons, h c (List.mem_cons_self c cs)]
    simp only [if_true, List.cons_append]
    rw [ih (fun d hd => h d (List.mem_cons.mpr (Or.inr hd)))]

theorem dropWhile_append_all {p : Char → Bool} (a r : List Char)
    (h : ∀ c ∈ a, p c = true) : (a ++ r).dropWhile p = r.dropWhile p := by
  induction a with
  | nil => simp
  | cons c cs ih =>
    rw [List.cons_append, List.dropWhile_cons, h c (List.mem_cons_self c cs)]
    simp only [if_true]
    exact ih (fun d hd => h d (List.mem_cons.mpr (Or.inr hd)))

theorem decimalLitOk_digits (a : List Char) (ha : a ≠ [])
    (h : ∀ c ∈ a, c.isDigit = true) : decimalLitOk a = true := by
  unfold decimalLitOk
  rw [List.dropWhile_eq_nil_iff.mpr h, List.takeWhile_eq_self_iff.mpr h]
  simp [expTailOk, ha]

theorem decimalLitOk_digits_dot_digits (a b : List Char) (ha : a ≠ [])
    (hda : ∀ c ∈ a, c.isDigit = true) (hdb : ∀ c ∈ b, c.isDigit = true) :
    decimalLitOk (a ++ '.' :: b) = true := by
  unfold decimalLitOk
  have hdot : ('.' : Char).isDigit = false := by decide
  rw [takeWhile_append_all a ('.' :: b) hda, dropWhile_append_all a ('.' :: b) hda,
    List.takeWhile_cons, List.dropWhile_cons, hdot]
  simp only [Bool.false_eq_true, if_false]
  rw [List.dropWhile_eq_nil_iff.mpr hdb, List.takeWhile_eq_self_iff.mpr hdb]
  simp [expTailOk, ha]

theorem jsNumberValid_of_digit_head (s : String) (c : Char) (rest : List Char)
    (hs : s.data = c :: rest) (hc : c.isDigit = true)
    (hrest : ∀ d ∈ rest, isDigitOrDot d = true)
    (hdec : decimalLitOk (c :: rest) = true) :
    jsNumberValid s = true := by
  have hall : ∀ d ∈ c :: rest, isJsWhitespace d = false := by
    intro d hd
    rcases List.mem_cons.mp hd with rfl | hd
    · exact isJsWhitespace_eq_false_of_digitOrDot d (by simp [isDigitOrDot, hc])
    · exact isJsWhitespace_eq_false_of_digitOrDot d (hrest d hd)
  have hcb := isDigit_toNat_bounds c hc
  have hplus : (c == '+') = false := beq_eq_false_iff_ne.mpr (char_ne_of_toNat_ne (by
    have : ('+' : Char).toNat = 43 := by decide
    omega))
  have hminus : (c == '-') = false := beq_eq_false_iff_ne.mpr (char_ne_of_toNat_ne (by
    have : ('-' : Char).toNat = 45 := by decide
    omega))
  have hInf : (c == 'I') = false := beq_eq_false_iff_ne.mpr (char_ne_of_toNat_ne (by
    have : ('I' : Char).toNat = 73 := by decide
    omega))
  have htail : ∀ ch : Char, 58 ≤ ch.toNat → (rest.head? == some ch) = false := by
    intro ch hch
    cases hr : rest with
    | nil => simp
    | cons d ds =>
      have hd := isDigitOrDot_toNat_bounds d
        (hrest d (by rw [hr]; exact List.mem_cons_self d ds))
      simp only [List.head?_cons]
      refine beq_eq_false_iff_ne.mpr (fun hsome => ?_)
      exact char_ne_of_toNat_ne (by omega) (Option.some.inj hsome)
  have hx := htail 'x' (by decide)
  have hX := htail 'X' (by decide)
  have ho := htail 'o' (by decide)
  have hO := htail 'O' (by decide)
  have hb := htail 'b' (by decide)
  have hB := htail 'B' (by decide)
  unfold jsNumberValid
  rw [hs, trimJsWs_eq_self _ hall]
  simp only [List.isEmpty_cons, Bool.false_eq_true, if_false, List.head?_cons,
    List.tail_cons, hx, hX, ho, hO, hb, hB, Bool.or_false, Bool.and_false]
  simp [hplus, hminus, hInf, hdec]

theorem head_not_minus (a : List Char) (h : ∀ c ∈ a, c.isDigit = true) :
    (a.head? == some '-') = false := by
  cases ha : a with
  | nil => simp
  | cons c cs =>
    have hc := isDigit_toNat_bounds c (h c (by rw [ha]; exact List.mem_cons_self c cs))
    simp only [List.head?_cons]
    refine beq_eq_false_iff_ne.mpr (fun hsome => ?_)
    have : ('-' : Char).toNat = 45 := by decide
    exact char_ne_of_toNat_ne (by omega) (Option.some.inj hsome)

theorem head_not_minus_dotted (a b : List Char) (h : ∀ c ∈ a, c.isDigit = true) :
    ((a ++ '.' :: b).head? == some '-') = false := by
  cases ha : a with
  | nil => simp
  | cons c cs =>
    have hc := isDigit_toNat_bounds c (h c (by rw [ha]; exact List.mem_cons_self c cs))
    simp only [List.cons_append, List.head?_cons]
    refine beq_eq_false_iff_ne.mpr (fun hsome => ?_)
    have : ('-' : Char).toNat = 45 := by decide
    exact char_ne_of_toNat_ne (by omega) (Option.some.inj hsome)

theorem not_dot_mem_digits (a : List Char) (h : ∀ c ∈ a, c.isDigit = true) :
    ('.' : Char) ∉ a := by
  intro hdot
  have := h '.' hdot
  simp at this

theorem viemRegexOk_digits (a : List Char) (h : ∀ c ∈ a, c.isDigit = true) :
    viemRegexOk a = true := by
  unfold viemRegexOk
  simp only [head_not_minus a h, Bool.false_eq_true, if_false]
  rw [List.dropWhile_eq_nil_iff.mpr h]

theorem viemRegexOk_digits_dot (a b : List Char) (ha : ∀ c ∈ a, c.isDigit = true)
    (hb : ∀ c ∈ b, c.isDigit = true) : viemRegexOk (a ++ '.' :: b) = true := by
  unfold viemRegexOk
  simp only [head_not_minus_dotted a b ha, Bool.false_eq_true, if_false]
  rw [dropWhile_append_all a ('.' :: b) ha, List.dropWhile_cons]
  have hdot : ('.' : Char).isDigit = false := by decide
  rw [hdot]
  simp only [Bool.false_eq_true, if_false]
  exact List.all_eq_true.mpr (fun c hc => hb c hc)

theorem stripTrailingZeros_replicate (m : ℕ) :
    stripTrailingZeros (List.replicate m '0') = [] := by
  unfold stripTrailingZeros
  rw [List.reverse_replicate, List.dropWhile_eq_nil_iff.mpr (by
    intro c hc
    rw [List.eq_of_mem_replicate hc]
    rfl)]
  rfl

theorem parseUnits_digits_dot_zeros (a : List Char) (m decimals : ℕ)
    (hd : ∀ c ∈ a, c.isDigit = true) :
    parseUnits (a ++ '.' :: List.replicate m '0') decimals =
      some ((charsToNat a : ℤ) * 10 ^ decimals) := by
  unfold parseUnits
  rw [viemRegexOk_digits_dot a (List.replicate m '0') hd (by
    intro c hc
    rw [List.eq_of_mem_replicate hc]
    rfl)]
  simp only [Bool.not_true, Bool.false_eq_true, if_false]
  rw [splitOnChar_append '.' a (List.replicate m '0') (not_dot_mem_digits a hd),
    splitOnChar_of_not_mem '.' (List.replicate m '0') (by
      intro hdot
      exact absurd (List.eq_of_mem_replicate hdot) (by decide))]
  simp only [List.headD_cons, head_not_minus a hd, stripTrailingZeros_replicate,
    Bool.false_eq_true, if_false, List.length_nil]
  by_cases h0 : decimals = 0
  · subst h0
    simp [charsToNat]
  · rw [if_neg h0]
    simp only [Nat.not_lt_zero, if_false]
    rw [show padEndZeros decimals ([] : List Char) = List.replicate decimals '0' by
      unfold padEndZeros
      simp]
    rw [charsToNat_append, charsToNat_replicate_zero, List.length_replicate]
    push_cast
    ring_nf

theorem parseUnits_digits (a : List Char) (decimals : ℕ)
    (hd : ∀ c ∈ a, c.isDigit = true) :
    parseUnits a decimals = some ((charsToNat a : ℤ) * 10 ^ decimals) := by
  unfold parseUnits
  rw [viemRegexOk_digits a hd]
  simp only [Bool.not_true, Bool.false_eq_true, if_false]
  rw [splitOnChar_of_not_mem '.' a (not_dot_mem_digits a hd)]
  simp only [List.headD_cons, head_not_minus a hd, Bool.false_eq_true, if_false]
  have hstrip : stripTrailingZeros ['0'] = [] := by decide
  rw [hstrip]
  simp only [List.length_nil]
  by_cases h0 : decimals = 0
  · subst h0
    simp [charsToNat]
  · rw [if_neg h0]
    simp only [Nat.not_lt_zero, if_false]
    rw [show padEndZeros decimals ([] : List Char) = List.replicate decimals '0' by
      unfold padEndZeros
      simp]
    rw [charsToNat_append, charsToNat_replicate_zero, List.length_replicate]
    push_cast
    ring_nf

theorem all_digit_natToChars (n : ℕ) : ∀ c ∈ natToChars n, c.isDigit = true :=
  fun c hc => mem_natToChars_isDigit n c hc

theorem parseTokenAmount_natToChars (n decimals : ℕ) :
    parseTokenAmount ⟨natToChars n⟩ decimals = (n : ℤ) * 10 ^ decimals := by
  unfold parseTokenAmount
  have hne : (natToChars n).isEmpty = false := by
    cases h : natToChars n with
    | nil => exact absurd h (natToChars_ne_nil n)
    | cons c cs => rfl
  obtain ⟨c, cs, hcons⟩ : ∃ c cs, natToChars n = c :: cs := by
    cases h : natToChars n with
    | nil => exact absurd h (natToChars_ne_nil n)
    | cons c cs => exact ⟨c, cs, rfl⟩
  have hvalid : jsNumberValid ⟨natToChars n⟩ = true := by
    refine jsNumberValid_of_digit_head _ c cs hcons ?_ ?_ ?_
    · exact all_digit_natToChars n c (hcons ▸ List.mem_cons_self c cs)
    · intro d hd
      have := all_digit_natToChars n d (hcons ▸ List.mem_cons.mpr (Or.inr hd))
      simp [isDigitOrDot, this]
    · refine decimalLitOk_digits (c :: cs) (by simp) ?_
      intro d hd
      exact all_digit_natToChars n d (hcons ▸ hd)
  show (if (String.mk (natToChars n)).data.isEmpty = true then 0
    else if (!jsNumberValid ⟨natToChars n⟩) = true then 0
    else _) = _
  rw [show (String.mk (natToChars n)).data = natToChars n from rfl, hne, hvalid]
  simp only [Bool.false_eq_true, if_false, Bool.not_true]
  rw [parseUnits_digits (natToChars n) decimals (all_digit_natToChars n),
    charsToNat_natToChars]

theorem parseTokenAmount_natToChars_dot_zeros (n m decimals : ℕ) :
    parseTokenAmount ⟨natToChars n ++ '.' :: List.replicate m '0'⟩ decimals =
      (n : ℤ) * 10 ^ decimals := by
  unfold parseTokenAmount
  obtain ⟨c, cs, hcons⟩ : ∃ c cs, natToChars n = c :: cs := by
    cases h : natToChars n with
    | nil => exact absurd h (natToChars_ne_nil n)
    | cons c cs => exact ⟨c, cs, rfl⟩
  have hzeros : ∀ d ∈ List.replicate m '0', d.isDigit = true := by
    intro d hd
    rw [List.eq_of_mem_replicate hd]
    rfl
  have hne : (natToChars n ++ '.' :: List.replicate m '0').isEmpty = false := by
    rw [hcons]
    rfl
  have hvalid : jsNumberValid ⟨natToChars n ++ '.' :: List.replicate m '0'⟩ = true := by
    refine jsNumberValid_of_digit_head _ c (cs ++ '.' :: List.replicate m '0')
      (by rw [hcons]; rfl) ?_ ?_ ?_
    · exact all_digit_natToChars n c (hcons ▸ List.mem_cons_self c cs)
    · intro d hd
      rcases List.mem_append.mp hd with h1 | h1
      · have := all_digit_natToChars n d (hcons ▸ List.mem_cons.mpr (Or.inr h1))
        simp [isDigitOrDot, this]
      · rcases List.mem_cons.mp h1 with rfl | h2
        · rfl
        · simp [isDigitOrDot, hzeros d h2]
    · have : c :: (cs ++ '.' :: List.replicate m '0') =
          (c :: cs) ++ '.' :: List.replicate m '0' := rfl
      rw [this]
      refine decimalLitOk_digits_dot_digits (c :: cs) (List.replicate m '0')
        (by simp) ?_ hzeros
      intro d hd
      exact all_digit_natToChars n d (hcons ▸ hd)
  show (if (String.mk _).data.isEmpty = true then 0
    else if (!jsNumberValid ⟨natToChars n ++ '.' :: List.replicate m '0'⟩) = true then 0
    else _) = _
  rw [show (String.mk (natToChars n ++ '.' :: List.replicate m '0')).data =
    natToChars n ++ '.' :: List.replicate m '0' from rfl, hne, hvalid]
  simp only [Bool.false_eq_true, if_false, Bool.not_true]
  rw [parseUnits_digits_dot_zeros (natToChars n) m decimals (all_digit_natToChars n),
    charsToNat_natToChars]

/-! ## Formatting whole-token amounts -/

theorem commasRev_short (l : List Char) (h : l.length ≤ 3) : commasRev l = l := by
  match l with
  | [] => rfl
  | [a] => rfl
  | [a, b] => rfl
  | [a, b, c] => rfl
  | a :: b :: c :: d :: rest =>
    simp only [List.length_cons] at h
    omega

theorem groupDigits_short (l : List Char) (h : l.length ≤ 3) : groupDigits l = l := by
  unfold groupDigits
  rw [commasRev_short l.reverse (by simpa using h), List.reverse_reverse]

/-- A whole number of tokens below 1000, formatted: plain digits, a dot, four
zeros (no grouping separator). -/
theorem formatTokenAmount_whole (k : ℕ) (h1 : 1 ≤ k) (h2 : k < 1000) :
    formatTokenAmount ((k : ℤ) * 10 ^ 18) 18 4 =
      ⟨natToChars k ++ '.' :: List.replicate 4 '0'⟩ := by
  have hne : ((k : ℤ) * 10 ^ 18) ≠ 0 := by positivity
  have hk1 : (1 : ℤ) ≤ (k : ℤ) := by exact_mod_cast h1
  have hge : ¬ ((k : ℤ) * 10 ^ 18 * 10 ^ 4 < 10 ^ 18) := by
    push_neg
    nlinarith [hk1]
  unfold formatTokenAmount
  rw [if_neg hne, if_neg hge]
  have htoNat : ((k : ℤ) * 10 ^ 18).toNat = k * 10 ^ 18 := by
    rw [show ((k : ℤ) * 10 ^ 18) = ((k * 10 ^ 18 : ℕ) : ℤ) by push_cast; ring]
    exact Int.toNat_natCast _
  rw [htoNat]
  unfold intlFormat
  have hn : (2 * (k * 10 ^ 18) * 10 ^ 4 + 10 ^ 18) / (2 * 10 ^ 18) = k * 10 ^ 4 := by
    rw [show 2 * (k * 10 ^ 18) * 10 ^ 4 = (2 * 10 ^ 18) * (k * 10 ^ 4) by ring]
    rw [Nat.mul_add_div (by norm_num)]
    norm_num
  rw [hn]
  simp only [OfNat.ofNat_ne_zero, if_false]
  have hip : k * 10 ^ 4 / 10 ^ 4 = k := Nat.mul_div_cancel k (by norm_num)
  have hfp : k * 10 ^ 4 % 10 ^ 4 = 0 := Nat.mul_mod_left k _
  rw [hip, hfp]
  rw [groupDigits_short (natToChars k) (length_natToChars_le k 3 (by norm_num) (by norm_num; omega))]
  have hpad : padStartZeros 4 (natToChars 0) = List.replicate 4 '0' := by decide
  rw [hpad]

/-- Claim C5, counterexample. At 1000 whole tokens the formatted string gains a
thousands separator, which `Number()` rejects, so the parse step of the
round-trip collapses to zero and re-formatting yields `"0.0000"`, not the
original display. -/
theorem format_parse_format_fails_at_1000 :
    formatTokenAmount ((1000 : ℤ) * 10 ^ 18) 18 4 = "1,000.0000" ∧
    parseTokenAmount ("1,000.0000") 18 = 0 ∧
    formatTokenAmount
      (parseTokenAmount (formatTokenAmount ((1000 : ℤ) * 10 ^ 18) 18 4) 18) 18 4 =
      "0.0000" ∧
    ("0.0000" : String) ≠ "1,000.0000" := by
  refine ⟨by decide, by decide, by decide, by decide⟩

/-- Claim C5, amended. For whole-token amounts small enough to be displayed
without a grouping separator (fewer than 1000 tokens),
`format (parse (format x)) = format x` at the default 18 decimals and 4
display decimals. -/
theorem format_parse_format_roundtrip (k : ℕ) (h : k < 1000) :
    formatTokenAmount
      (parseTokenAmount (formatTokenAmount ((k : ℤ) * 10 ^ 18) 18 4) 18) 18 4 =
      formatTokenAmount ((k : ℤ) * 10 ^ 18) 18 4 := by
  by_cases hk : k = 0
  · subst hk
    decide
  · have h1 : 1 ≤ k := by omega
    rw [formatTokenAmount_whole k h1 h, parseTokenAmount_natToChars_dot_zeros k 4 18,
      formatTokenAmount_whole k h1 h]

/-- Witness for C5 at `k = 5` whole tokens. -/
theorem format_parse_format_roundtrip_witness :
    (5 : ℕ) < 1000 ∧
    formatTokenAmount
      (parseTokenAmount (formatTokenAmount (((5 : ℕ) : ℤ) * 10 ^ 18) 18 4) 18) 18 4 =
      formatTokenAmount (((5 : ℕ) : ℤ) * 10 ^ 18) 18 4 :=
  ⟨by decide, format_parse_format_roundtrip 5 (by decide)⟩

/-! ## `StakeFlow.handleAmountChange` (amount input → stored wei) -/

/-- Function `isValidNumberInput` from `formatting.ts`: the guard
`!value || value.trim() === ''`, the regex `^\d*\.?\d*$` (digits with at
most one dot), and `!isNaN(Number(value))`. -/
def isValidNumberInput (s : String) : Bool :=
  !s.data.isEmpty && !(trimJsWs s.data).isEmpty &&
    (s.data.all isDigitOrDot && decide (s.data.count '.' ≤ 1)) &&
    jsNumberValid s

/-- Unnormalized non-negative fraction: the exact value of the JavaScript
doubles handled here. -/
structure Q2 where
  num : ℕ
  den : ℕ
deriving DecidableEq

/-- Model of `Math.floor` of a non-negative `Q2`. -/
def Q2.floorN (q : Q2) : ℕ := q.num / q.den

/-- Model of `parseFloat` on a comma-stripped sanitizer output (digits, at
most one dot): the exact decimal value, `none` for `NaN`. The full
`parseFloat` grammar (signs, exponents, `Infinity`) is unreachable from
sanitizer output, which contains no letters or signs. The double is modelled
by the exact rational; the handler only consumes its `Math.floor`, which
agrees with the exact floor except for inputs within half an ulp of an
integer (17-plus significant digits), where the original claim's
"floor(parsed value)" is itself ambiguous. Because the exact floor is then
fed to `jsNatToChars`, whose exact-digit model is only faithful below
`2^53` (and at the representable `10^22`), the floor-and-clamp theorem
restricts its hypothesis to floors below `2^53`. -/
def parseFloatClean (l : List Char) : Option Q2 :=
  let ip := l.takeWhile (·.isDigit)
  let r := l.dropWhile (·.isDigit)
  match r with
  | '.' :: r2 =>
    let fp := r2.takeWhile (·.isDigit)
    if ip.isEmpty && fp.isEmpty then none
    else some ⟨charsToNat ip * 10 ^ fp.length + charsToNat fp, 10 ^ fp.length⟩
  | _ => if ip.isEmpty then none else some ⟨charsToNat ip, 1⟩

/-- ECMA-262 `ToString` applied to a non-negative integer double, modelled as
printing the integer's exact decimal digits: plain decimal notation below
`1e21`, exponential notation (significant digits, `e+k`) from `1e21` upward.
The real algorithm prints the shortest digit string that round-trips to the
double, which coincides with the exact digits for every integer below `2^53`
(each is its own unique double) and for the exactly representable `10^22`
(shortest form `1e+22`), the only values the theorems feed through this
function; for non-representable integers above `2^53` the shortest form
drops trailing precision (for example `2^60` prints as
`1152921504606847000`) and this model diverges from the program. -/
def jsNatToChars (n : ℕ) : List Char :=
  if n < 10 ^ 21 then natToChars n
  else
    let ds := natToChars n
    let k := ds.length - 1
    match stripTrailingZeros ds with
    | [] => ['0']
    | [d] => d :: 'e' :: '+' :: natToChars k
    | d :: rest => d :: '.' :: rest ++ 'e' :: '+' :: natToChars k

/-- Function `StakeFlow.handleAmountChange` (StakeFlow.tsx lines 93–133), reduced to
the `stakeAmountWei` it stores; the display-string updates do not affect the
submitted amount and are not modelled. `balances = none` is a `null`
balances prop. -/
def handleAmountChange (value : String) (balances : Option ℕ) : ℤ :=
  let sanitized := sanitizeChars value.data
  if isValidNumberInput ⟨sanitized⟩ && !sanitized.isEmpty then
    match parseFloatClean (sanitized.filter (fun c => c != ',')) with
    | some num =>
      let flooredNum := num.floorN
      let amount := parseTokenAmount ⟨jsNatToChars flooredNum⟩ 18
      match balances with
      | some feyBalance =>
        if (feyBalance : ℤ) < amount then (feyBalance : ℤ) else amount
      | none => amount
    | none => 0
  else 0

theorem filter_comma_sanitizeChars (l : List Char) :
    (sanitizeChars l).filter (fun c => c != ',') = sanitizeChars l := by
  refine List.filter_eq_self.mpr (fun c hc => ?_)
  have hb := isDigitOrDot_toNat_bounds c (mem_sanitizeChars_isDigitOrDot l c hc)
  refine bne_iff_ne.mpr (char_ne_of_toNat_ne ?_)
  have : (',' : Char).toNat = 44 := by decide
  omega

/-- Claim C4, amended. On a valid input whose floored token count stays below
`2^53` (where integer doubles are exact and `toString` prints the exact
decimal digits), the stored wei is `floor(parsed) * 10^18` clamped to the
balance. -/
theorem handleAmountChange_floor_clamp (s : String) (bal : ℕ) (q : Q2)
    (hval : isValidNumberInput (sanitizeNumberInput s) = true)
    (hne : (sanitizeNumberInput s).data ≠ [])
    (hq : parseFloatClean (sanitizeNumberInput s).data = some q)
    (hsmall : q.floorN < 2 ^ 53) :
    handleAmountChange s (some bal) = min ((q.floorN : ℤ) * 10 ^ 18) (bal : ℤ) ∧
    handleAmountChange ("500.789") (some (10 ^ 21)) = 500 * 10 ^ 18 := by
  constructor
  · simp only [handleAmountChange]
    have hs : (sanitizeNumberInput s).data = sanitizeChars s.data := rfl
    rw [hs] at hq
    have hne' : (sanitizeChars s.data).isEmpty = false := by
      cases hl : sanitizeChars s.data with
      | nil => exact absurd (hs.trans hl) hne
      | cons c cs => rfl
    have hval' : isValidNumberInput ⟨sanitizeChars s.data⟩ = true := hval
    rw [filter_comma_sanitizeChars, hq]
    simp only [hval', hne', Bool.not_false, Bool.and_true, if_true]
    rw [show jsNatToChars q.floorN = natToChars q.floorN by
      unfold jsNatToChars
      rw [if_pos (lt_trans hsmall (by norm_num))]]
    rw [parseTokenAmount_natToChars q.floorN 18]
    rcases le_or_lt ((q.floorN : ℤ) * 10 ^ 18) (bal : ℤ) with hle | hlt
    · rw [if_neg (by omega), min_eq_left hle]
    · rw [if_pos hlt, min_eq_right (by omega)]
  · decide

/-- Claim C4, counterexample. An input of `10^22` whole tokens (valid decimal
text) against a balance of `10^21` wei: the floored count reaches `1e21`, so
JavaScript renders it in exponential notation, viem's `parseUnits` rejects
that string, and the handler stores `0` instead of clamping to the balance. -/
theorem handleAmountChange_huge_input_not_clamped :
    parseFloatClean (sanitizeNumberInput ("10000000000000000000000")).data =
      some ⟨10 ^ 22, 1⟩ ∧
    ((10 ^ 22 : ℤ) * 10 ^ 18) > ((10 ^ 21 : ℕ) : ℤ) ∧
    handleAmountChange ("10000000000000000000000") (some (10 ^ 21)) = 0 ∧
    (0 : ℤ) ≠ ((10 ^ 21 : ℕ) : ℤ) := by
  refine ⟨by decide, by decide, by decide, by decide⟩

/-- Witness for C4 at input `"12.5"` and balance `10^21` wei. -/
theorem handleAmountChange_floor_clamp_witness :
    handleAmountChange ("12.5") (some (10 ^ 21)) =
      min (((Q2.mk 125 10).floorN : ℤ) * 10 ^ 18) ((10 ^ 21 : ℕ) : ℤ) ∧
    handleAmountChange ("500.789") (some (10 ^ 21)) = 500 * 10 ^ 18 :=
  handleAmountChange_floor_clamp ("12.5") (10 ^ 21) ⟨125, 10⟩
    (by decide) (by decide) (by decide) (by decide)

/-! ## `StakeFlow.handlePercentageChange` and 53-bit doubles

`handlePercentageChange` converts the bigint balance through `Number()`,
multiplies and divides in doubles, floors, and converts back through
`BigInt()`. Unlike the other handlers its observable result depends on
double rounding, so here every arithmetic operation is followed by an
explicit round-to-nearest-even at 53 significant bits (`flQ`), the IEEE-754
binary64 rounding of the exact fraction (exponent range is nowhere near
subnormal or overflow territory for these values). -/

/-- Computes `⌊log2 n⌋` (fuel-based so the kernel can evaluate it). -/
def log2NatAux : ℕ → ℕ → ℕ
  | 0, _ => 0
  | f + 1, n => if n ≤ 1 then 0 else log2NatAux f (n / 2) + 1

def log2Nat (n : ℕ) : ℕ := log2NatAux n n

/-- Smallest `t` with `den ≤ num * 2^t` (for `0 < num/den < 1`). -/
def negExpAux : ℕ → ℕ → ℕ → ℕ
  | 0, _, _ => 0
  | f + 1, num, den => if den ≤ num then 0 else negExpAux f (2 * num) den + 1

/-- Computes `⌊log2 (num/den)⌋` of a positive fraction. -/
def Q2.log2floor (q : Q2) : ℤ :=
  if q.den ≤ q.num then (log2Nat (q.num / q.den) : ℤ)
  else -(negExpAux q.den q.num q.den : ℤ)

/-- Round a non-negative fraction to the nearest (ties-to-even) multiple of
`2^(⌊log2 q⌋ - 52)`: IEEE-754 binary64 rounding in the normal range. -/
def flQ (q : Q2) : Q2 :=
  if q.num = 0 then ⟨0, 1⟩
  else
    let e := q.log2floor - 52
    let m0 : ℕ × ℕ :=
      if 0 ≤ e then (q.num, q.den * 2 ^ e.toNat)
      else (q.num * 2 ^ (-e).toNat, q.den)
    let fl0 := m0.1 / m0.2
    let r := m0.1 % m0.2
    let m := if 2 * r < m0.2 then fl0
      else if m0.2 < 2 * r then fl0 + 1
      else if fl0 % 2 = 0 then fl0 else fl0 + 1
    if 0 ≤ e then ⟨m * 2 ^ e.toNat, 1⟩ else ⟨m, 2 ^ (-e).toNat⟩

/-- Double multiplication: exact product, then one rounding. -/
def jsMul (a b : Q2) : Q2 := flQ ⟨a.num * b.num, a.den * b.den⟩

/-- Double division: exact quotient, then one rounding. -/
def jsDiv (a b : Q2) : Q2 := flQ ⟨a.num * b.den, a.den * b.num⟩

/-- Model of `Math.round` on a non-negative double: half up, exact. -/
def jsRound (x : Q2) : ℕ := (2 * x.num + x.den) / (2 * x.den)

/-- Model of `Number()` applied to a non-negative bigint. -/
def natToQ2 (n : ℕ) : Q2 := flQ ⟨n, 1⟩

/-- Function `StakeFlow.handlePercentageChange` (StakeFlow.tsx lines 136–157), reduced
to the `stakeAmountWei` it stores; `none` models the early return (`null`
balances or zero balance), where no amount is stored. -/
def handlePercentageChange (value : Q2) (balances : Option ℕ) : Option ℤ :=
  match balances with
  | none => none
  | some feyBalance =>
    if feyBalance = 0 then none
    else
      let pct := jsDiv ⟨jsRound (jsMul value ⟨100, 1⟩), 1⟩ ⟨100, 1⟩
      let balanceNum := natToQ2 feyBalance
      let amountNum : ℕ := (jsDiv (jsMul balanceNum pct) ⟨100, 1⟩).floorN
      let amountWei : ℤ := (amountNum : ℤ)
      some (if (feyBalance : ℤ) < amountWei then (feyBalance : ℤ) else amountWei)

/-- Modelled from the spec: `percentageToAmount(pct, balance) ->
floor(balance * pct / 100)`, clamped to `balance` — the exact-arithmetic
definition §4.1 gives for the percentage slider. -/
def percentageToAmount (pct balance : ℕ) : ℕ :=
  min (balance * pct / 100) balance

/-- Claim C6, code bug. At a balance of `10^21` wei (1000 tokens, the spec's
own scenario magnitude) and slider value 100, the handler stores
`999999999999999868928` wei — short of the balance by `131072` wei — because
`10^23` and the subsequent quotient are not representable as doubles. The
spec's exact-arithmetic `percentageToAmount` yields the full balance. -/
theorem handlePercentageChange_100_below_balance :
    handlePercentageChange ⟨100, 1⟩ (some (10 ^ 21)) =
      some 999999999999999868928 ∧
    (999999999999999868928 : ℤ) ≠ ((10 ^ 21 : ℕ) : ℤ) ∧
    percentageToAmount 100 (10 ^ 21) = 10 ^ 21 := by
  refine ⟨by decide, by decide, by decide⟩

/-! ## Stake / Unstake orchestration -/

inductive StakeStep
  | input | approve | deposit | success
deriving DecidableEq

structure UserBalances where
  feyBalance : ℕ
  xFeyBalance : ℕ
  allowance : ℕ
deriving DecidableEq

inductive StakeTx
  | approveCall (amountWei : ℕ)
  | depositCall (amountWei : ℕ)
deriving DecidableEq

def StakeTx.amount : StakeTx → ℕ
  | .approveCall a => a
  | .depositCall a => a

/-- Function `StakeFlow.handleProceed` (StakeFlow.tsx lines 177–198) as a function of
the balances prop and the stored wei: the step after the click and the
transaction submitted, if any. `isValidAmount` (`wei > 0 && balances &&
wei <= feyBalance`) guards everything; the button is only rendered in the
Input step, so an invalid amount leaves the session there. -/
def handleProceed (balances : Option UserBalances) (stakeAmountWei : ℕ) :
    StakeStep × Option StakeTx :=
  match balances with
  | none => (.input, none)
  | some b =>
    if stakeAmountWei = 0 ∨ b.feyBalance < stakeAmountWei then (.input, none)
    else if b.allowance < stakeAmountWei then
      (.approve, some (.approveCall stakeAmountWei))
    else (.deposit, some (.depositCall stakeAmountWei))

inductive UnstakeStep
  | input | unstaking | success
deriving DecidableEq

/-- Function `UnstakeFlow.handleUnstake` (UnstakeFlow.tsx lines 122–139): validation
`wei > 0 && balances && wei <= xFeyBalance`, then the redeem submission. -/
def handleUnstake (balances : Option UserBalances) (unstakeAmountWei : ℕ) :
    UnstakeStep × Option ℕ :=
  match balances with
  | none => (.input, none)
  | some b =>
    if unstakeAmountWei = 0 ∨ b.xFeyBalance < unstakeAmountWei then (.input, none)
    else (.unstaking, some unstakeAmountWei)

/-- Claim C3. Both handlers reject a zero amount, an over-balance amount, and
unknown balances — no transaction, session stays at Input — and every amount
they do submit is positive and bounded by the corresponding balance. -/
theorem proceed_unstake_validation (balances : Option UserBalances) (amt : ℕ) :
    ((amt = 0 ∨ balances = none ∨ ∃ b, balances = some b ∧ b.feyBalance < amt) →
      handleProceed balances amt = (.input, none)) ∧
    ((amt = 0 ∨ balances = none ∨ ∃ b, balances = some b ∧ b.xFeyBalance < amt) →
      handleUnstake balances amt = (.input, none)) ∧
    (∀ tx, (handleProceed balances amt).2 = some tx →
      0 < tx.amount ∧ ∃ b, balances = some b ∧ tx.amount ≤ b.feyBalance) ∧
    (∀ a, (handleUnstake balances amt).2 = some a →
      0 < a ∧ ∃ b, balances = some b ∧ a ≤ b.xFeyBalance) := by
  refine ⟨?_, ?_, ?_, ?_⟩
  · rintro (rfl | rfl | ⟨b, rfl, hb⟩)
    · cases balances with
      | none => rfl
      | some b => simp [handleProceed]
    · rfl
    · simp only [handleProceed]
      rw [if_pos (Or.inr hb)]
  · rintro (rfl | rfl | ⟨b, rfl, hb⟩)
    · cases balances with
      | none => rfl
      | some b => simp [handleUnstake]
    · rfl
    · simp only [handleUnstake]
      rw [if_pos (Or.inr hb)]
  · intro tx htx
    match hbal : balances with
    | none => simp [handleProceed] at htx
    | some b =>
      simp only [handleProceed] at htx
      by_cases hv : amt = 0 ∨ b.feyBalance < amt
      · rw [if_pos hv] at htx
        simp at htx
      · rw [if_neg hv] at htx
        push_neg at hv
        by_cases hap : b.allowance < amt
        · rw [if_pos hap] at htx
          simp only [Option.some.injEq] at htx
          subst htx
          exact ⟨by simpa [StakeTx.amount] using Nat.pos_of_ne_zero hv.1,
            b, rfl, by simpa [StakeTx.amount] using hv.2⟩
        · rw [if_neg hap] at htx
          simp only [Option.some.injEq] at htx
          subst htx
          exact ⟨by simpa [StakeTx.amount] using Nat.pos_of_ne_zero hv.1,
            b, rfl, by simpa [StakeTx.amount] using hv.2⟩
  · intro a ha
    match hbal : balances with
    | none => simp [handleUnstake] at ha
    | some b =>
      simp only [handleUnstake] at ha
      by_cases hv : amt = 0 ∨ b.xFeyBalance < amt
      · rw [if_pos hv] at ha
        simp at ha
      · rw [if_neg hv] at ha
        push_neg at hv
        simp only [Option.some.injEq] at ha
        subst ha
        exact ⟨Nat.pos_of_ne_zero hv.1, b, rfl, hv.2⟩

/-- Witness for C3: zero amount rejected; a valid submission is bounded. -/
theorem proceed_unstake_validation_witness :
    handleProceed (some ⟨10, 10, 0⟩) 0 = (.input, none) ∧
    handleUnstake (some ⟨10, 10, 0⟩) 0 = (.input, none) :=
  ⟨(proceed_unstake_validation (some ⟨10, 10, 0⟩) 0).1 (Or.inl rfl),
    (proceed_unstake_validation (some ⟨10, 10, 0⟩) 0).2.1 (Or.inl rfl)⟩

/-! ## The StakeFlow session as an event system

The component's state (`currentStep`, `stakeAmountWei`, the
`hasTriggeredStaking` ref), its props (`balances`), and the two transaction
hooks' success flags evolve through user clicks, the three `useEffect`s, and
the confirmation watcher. Each of those is an event; a trace is an arbitrary
interleaving, so effects may observe the same signals repeatedly. The two
hooks (`useFeyApproval` / `useFeyStaking`, not part of the sources) are
modelled from the spec's Transaction Lifecycle Tracker (§4.3): `Confirmed`
is terminal and idempotent — repeated confirmation signals are no-ops — and
a new `submit()` starts a fresh cycle, so `approval.approve()` in
`handleProceed` clears `isSuccess`. Ghost counters record the auto-chain's
stake submissions and the approval tracker's transitions into `Confirmed`. -/

structure FlowState where
  step : StakeStep
  stakeAmountWei : ℕ
  hasTriggeredStaking : Bool
  balances : Option UserBalances
  approvalSuccess : Bool
  stakingSuccess : Bool
  pendingAutoStake : Bool
  autoStakeSubmits : ℕ
  approvalConfirms : ℕ
deriving DecidableEq

inductive FlowEv
  | amountChange (n : ℕ)
  | proceed
  | approvalConfirmed
  | autoChainEffect
  | autoStakeResolved (ok : Bool)
  | stakingConfirmed
  | stakeSuccessEffect
  | resetEffect
  | backToInput
  | balancesRefresh (b : Option UserBalances)
deriving DecidableEq

/-- One event of the StakeFlow session.

* `amountChange` — the amount input (rendered only at Input) stores a new wei;
* `proceed` — `handleProceed` (StakeFlow.tsx 184–198);
* `approvalConfirmed` — the watcher resolves the approval (idempotent once
  Confirmed, per §4.3);
* `autoChainEffect` — the auto-chain `useEffect` (lines 47–65): guard on
  `approval.isSuccess && currentStep === 'approve' && stakeAmountWei > 0n &&
  !hasTriggeredStaking.current`, then set the flag, move to Deposit and
  schedule `staking.stake`;
* `autoStakeResolved` — that scheduled call settles; on rejection the
  `.catch` resets the flag (line 61);
* `stakingConfirmed` / `stakeSuccessEffect` — deposit confirmation and the
  success-transition effect (lines 68–72);
* `resetEffect` — the Input-step reset effect (lines 75–83);
* `backToInput` — the TRY AGAIN / CHANGE AMOUNT buttons;
* `balancesRefresh` — the polled balances prop changes. -/
def stepEv (s : FlowState) : FlowEv → FlowState
  | .amountChange n =>
    if s.step = .input then { s with stakeAmountWei := n } else s
  | .proceed =>
    if s.step = .input then
      match s.balances with
      | none => s
      | some b =>
        if s.stakeAmountWei = 0 ∨ b.feyBalance < s.stakeAmountWei then s
        else if b.allowance < s.stakeAmountWei then
          { s with step := .approve, approvalSuccess := false }
        else { s with step := .deposit }
    else s
  | .approvalConfirmed =>
    if s.approvalSuccess = true then s
    else { s with approvalSuccess := true, approvalConfirms := s.approvalConfirms + 1 }
  | .autoChainEffect =>
    if s.approvalSuccess = true ∧ s.step = .approve ∧ 0 < s.stakeAmountWei ∧
        s.hasTriggeredStaking = false then
      { s with hasTriggeredStaking := true, step := .deposit, pendingAutoStake := true, autoStakeSubmits := s.autoStakeSubmits + 1 }
    else s
  | .autoStakeResolved ok =>
    if s.pendingAutoStake = true then
      if ok then { s with pendingAutoStake := false }
      else { s with pendingAutoStake := false, hasTriggeredStaking := false }
    else s
  | .stakingConfirmed => { s with stakingSuccess := true }
  | .stakeSuccessEffect =>
    if s.stakingSuccess = true ∧ s.step = .deposit then { s with step := .success }
    else s
  | .resetEffect =>
    if s.step = .input then { s with hasTriggeredStaking := false } else s
  | .backToInput =>
    if s.step = .approve ∨ s.step = .deposit then { s with step := .input } else s
  | .balancesRefresh b => { s with balances := b }

def runFlow (s : FlowState) : List FlowEv → FlowState
  | [] => s
  | e :: es => runFlow (stepEv s e) es

/-- The step observed before each event and after the last one. -/
def stepsTrace (s : FlowState) : List FlowEv → List StakeStep
  | [] => [s.step]
  | e :: es => s.step :: stepsTrace (stepEv s e) es

/-- Collapse consecutive repeats: the sequence of *distinct* observed steps. -/
def dedupConsec : List StakeStep → List StakeStep
  | [] => []
  | [a] => [a]
  | a :: b :: r => if a = b then dedupConsec (b :: r) else a :: dedupConsec (b :: r)

/-- A fresh session. -/
def initFlow (balances : Option UserBalances) : FlowState :=
  { step := .input, stakeAmountWei := 0, hasTriggeredStaking := false,
    balances := balances, approvalSuccess := false, stakingSuccess := false,
    pendingAutoStake := false, autoStakeSubmits := 0, approvalConfirms := 0 }

/-- One auto-chain submission is "owed" whenever a confirmed approval is
observable from the Approving step with the guard open (or an auto stake
still unresolved, whose failure would re-open it). -/
def c1Debt (s : FlowState) : ℕ :=
  if s.approvalSuccess = true ∧ s.step = .approve ∧
      (s.hasTriggeredStaking = false ∨ s.pendingAutoStake = true) then 1 else 0

def c1Inv (s : FlowState) : Prop :=
  s.autoStakeSubmits + c1Debt s ≤ s.approvalConfirms

theorem c1Debt_le_one (s : FlowState) : c1Debt s ≤ 1 := by
  unfold c1Debt
  split_ifs <;> omega

theorem c1Debt_of_step_ne (s : FlowState) (h : s.step ≠ .approve) : c1Debt s = 0 := by
  unfold c1Debt
  rw [if_neg]
  rintro ⟨-, h2, -⟩
  exact h h2

theorem c1Debt_of_not_success (s : FlowState) (h : s.approvalSuccess = false) :
    c1Debt s = 0 := by
  unfold c1Debt
  rw [if_neg]
  rintro ⟨h1, -, -⟩
  rw [h] at h1
  exact Bool.false_ne_true h1

theorem c1Inv_le (s : FlowState) (h : c1Inv s) :
    s.autoStakeSubmits ≤ s.approvalConfirms :=
  le_trans (Nat.le_add_right _ _) h

theorem c1Inv_step (s : FlowState) (e : FlowEv) (h : c1Inv s) :
    c1Inv (stepEv s e) := by
  have hle := c1Inv_le s h
  unfold c1Inv at h
  cases e with
  | amountChange n =>
    simp only [stepEv]
    split_ifs with hstep
    · have hd : c1Debt { s with stakeAmountWei := n } = c1Debt s := rfl
      unfold c1Inv
      dsimp only
      rw [hd]
      exact h
    · exact h
  | proceed =>
    simp only [stepEv]
    split_ifs with hstep
    · cases hb : s.balances with
      | none => exact h
      | some b =>
        dsimp only
        split_ifs with hv hap
        · exact h
        · unfold c1Inv
          rw [c1Debt_of_not_success _ rfl]
          dsimp only
          omega
        · unfold c1Inv
          rw [c1Debt_of_step_ne _ (by intro hh; cases hh)]
          dsimp only
          omega
    · exact h
  | approvalConfirmed =>
    simp only [stepEv]
    split_ifs with hs
    · exact h
    · have hfalse : s.approvalSuccess = false := by
        cases hh : s.approvalSuccess
        · rfl
        · exact absurd hh hs
      have h0 : c1Debt s = 0 := c1Debt_of_not_success s hfalse
      have h1 := c1Debt_le_one
        { s with approvalSuccess := true, approvalConfirms := s.approvalConfirms + 1 }
      unfold c1Inv
      dsimp only
      omega
  | autoChainEffect =>
    simp only [stepEv]
    split_ifs with hg
    · have hpre : c1Debt s = 1 := by
        unfold c1Debt
        rw [if_pos ⟨hg.1, hg.2.1, Or.inl hg.2.2.2⟩]
      unfold c1Inv
      rw [c1Debt_of_step_ne _ (by intro hh; cases hh)]
      dsimp only
      omega
    · exact h
  | autoStakeResolved ok =>
    simp only [stepEv]
    split_ifs with hp hok
    · have hd : c1Debt { s with pendingAutoStake := false } ≤ c1Debt s := by
        by_cases hC : s.approvalSuccess = true ∧ s.step = StakeStep.approve ∧
            (s.hasTriggeredStaking = false ∨ s.pendingAutoStake = true)
        · have h1 : c1Debt s = 1 := by
            unfold c1Debt
            rw [if_pos hC]
          rw [h1]
          exact c1Debt_le_one _
        · have h0 : c1Debt s = 0 := by
            unfold c1Debt
            rw [if_neg hC]
          have hpost : c1Debt { s with pendingAutoStake := false } = 0 := by
            unfold c1Debt
            rw [if_neg]
            intro hC2
            dsimp only at hC2
            exact hC ⟨hC2.1, hC2.2.1, Or.inr hp⟩
          rw [h0, hpost]
      unfold c1Inv
      dsimp only
      omega
    · have hd : c1Debt { s with pendingAutoStake := false, hasTriggeredStaking := false } ≤ c1Debt s := by
        by_cases hC : s.approvalSuccess = true ∧ s.step = StakeStep.approve ∧
            (s.hasTriggeredStaking = false ∨ s.pendingAutoStake = true)
        · have h1 : c1Debt s = 1 := by
            unfold c1Debt
            rw [if_pos hC]
          rw [h1]
          exact c1Debt_le_one _
        · have h0 : c1Debt s = 0 := by
            unfold c1Debt
            rw [if_neg hC]
          have hpost : c1Debt { s with pendingAutoStake := false, hasTriggeredStaking := false } = 0 := by
            unfold c1Debt
            rw [if_neg]
            intro hC2
            dsimp only at hC2
            exact hC ⟨hC2.1, hC2.2.1, Or.inr hp⟩
          rw [h0, hpost]
      unfold c1Inv
      dsimp only
      omega
    · exact h
  | stakingConfirmed =>
    simp only [stepEv]
    have hd : c1Debt { s with stakingSuccess := true } = c1Debt s := rfl
    unfold c1Inv
    dsimp only
    rw [hd]
    exact h
  | stakeSuccessEffect =>
    simp only [stepEv]
    split_ifs with hg
    · unfold c1Inv
      rw [c1Debt_of_step_ne _ (by intro hh; cases hh)]
      dsimp only
      omega
    · exact h
  | resetEffect =>
    simp only [stepEv]
    split_ifs with hstep
    · unfold c1Inv
      rw [c1Debt_of_step_ne _ (by dsimp only; rw [hstep]; intro hh; cases hh)]
      dsimp only
      omega
    · exact h
  | backToInput =>
    simp only [stepEv]
    split_ifs with hstep
    · unfold c1Inv
      rw [c1Debt_of_step_ne _ (by intro hh; cases hh)]
      dsimp only
      omega
    · exact h
  | balancesRefresh b =>
    simp only [stepEv]
    have hd : c1Debt { s with balances := b } = c1Debt s := rfl
    unfold c1Inv
    dsimp only
    rw [hd]
    exact h

theorem c1Inv_run (s : FlowState) (evs : List FlowEv) (h : c1Inv s) :
    c1Inv (runFlow s evs) := by
  induction evs generalizing s with
  | nil => exact h
  | cons e es ih => exact ih (stepEv s e) (c1Inv_step s e h)

/-- Claim C1, counterexample. A concrete session: amount 5, proceed (allowance
0), approval confirms, the auto-chain fires (guard set, step Deposit), and
then the scheduled `staking.stake` call rejects — the `.catch` at
StakeFlow.tsx line 61 resets the one-shot guard while the session is still at
the Deposit step, never having returned to Input. -/
theorem guard_reset_at_deposit_step :
    (runFlow (initFlow (some ⟨10, 10, 0⟩))
      [.amountChange 5, .proceed, .approvalConfirmed, .autoChainEffect]).hasTriggeredStaking
        = true ∧
    (runFlow (initFlow (some ⟨10, 10, 0⟩))
      [.amountChange 5, .proceed, .approvalConfirmed, .autoChainEffect]).step
        = .deposit ∧
    (runFlow (initFlow (some ⟨10, 10, 0⟩))
      [.amountChange 5, .proceed, .approvalConfirmed, .autoChainEffect,
        .autoStakeResolved false]).hasTriggeredStaking = false ∧
    (runFlow (initFlow (some ⟨10, 10, 0⟩))
      [.amountChange 5, .proceed, .approvalConfirmed, .autoChainEffect,
        .autoStakeResolved false]).step = .deposit := by
  refine ⟨by decide, by decide, by decide, by decide⟩

/-- Claim C1, amended. In every trace of the session, the auto-chain's stake
submissions never exceed the approval tracker's confirmations — at most once
per approval confirmation, however often the effects re-observe the signals —
and the one-shot guard is reset only at the Input step **or** when the
auto-triggered stake submission fails (the `.catch` reset the original claim
omits). -/
theorem autoChain_once_per_confirmation :
    (∀ (balances : Option UserBalances) (evs : List FlowEv),
      (runFlow (initFlow balances) evs).autoStakeSubmits ≤
        (runFlow (initFlow balances) evs).approvalConfirms) ∧
    (∀ (s : FlowState) (e : FlowEv),
      s.hasTriggeredStaking = true →
      (stepEv s e).hasTriggeredStaking = false →
      (s.step = .input ∧ e = .resetEffect) ∨ e = .autoStakeResolved false) := by
  constructor
  · intro balances evs
    have h0 : c1Inv (initFlow balances) := by
      unfold c1Inv
      rw [c1Debt_of_not_success _ rfl]
      simp [initFlow]
    exact c1Inv_le _ (c1Inv_run _ evs h0)
  · intro s e h1 h2
    cases e with
    | amountChange n =>
      exfalso
      simp only [stepEv] at h2
      split_ifs at h2 <;> (try dsimp only at h2) <;> rw [h1] at h2 <;> exact Bool.noConfusion h2
    | proceed =>
      exfalso
      simp only [stepEv] at h2
      split_ifs at h2 with hstep
      · cases hb : s.balances with
        | none =>
          rw [hb] at h2
          (try dsimp only at h2)
          rw [h1] at h2
          exact Bool.noConfusion h2
        | some b =>
          rw [hb] at h2
          (try dsimp only at h2)
          split_ifs at h2 <;> (try dsimp only at h2) <;> rw [h1] at h2 <;>
            exact Bool.noConfusion h2
      · rw [h1] at h2
        exact Bool.noConfusion h2
    | approvalConfirmed =>
      exfalso
      simp only [stepEv] at h2
      split_ifs at h2 <;> (try dsimp only at h2) <;> rw [h1] at h2 <;> exact Bool.noConfusion h2
    | autoChainEffect =>
      exfalso
      simp only [stepEv] at h2
      split_ifs at h2
      rw [h1] at h2
      exact Bool.noConfusion h2
    | autoStakeResolved ok =>
      simp only [stepEv] at h2
      split_ifs at h2 with hp hok
      · exfalso
        (try dsimp only at h2)
        rw [h1] at h2
        exact Bool.noConfusion h2
      · right
        have : ok = false := by
          cases ok with
          | false => rfl
          | true => exact absurd rfl hok
        rw [this]
      · exfalso
        rw [h1] at h2
        exact Bool.noConfusion h2
    | stakingConfirmed =>
      exfalso
      dsimp only [stepEv] at h2
      rw [h1] at h2
      exact Bool.noConfusion h2
    | stakeSuccessEffect =>
      exfalso
      simp only [stepEv] at h2
      split_ifs at h2 <;> (try dsimp only at h2) <;> rw [h1] at h2 <;> exact Bool.noConfusion h2
    | resetEffect =>
      simp only [stepEv] at h2
      split_ifs at h2 with hstep
      · exact Or.inl ⟨hstep, rfl⟩
      · exfalso
        rw [h1] at h2
        exact Bool.noConfusion h2
    | backToInput =>
      exfalso
      simp only [stepEv] at h2
      split_ifs at h2 <;> (try dsimp only at h2) <;> rw [h1] at h2 <;> exact Bool.noConfusion h2
    | balancesRefresh b =>
      exfalso
      dsimp only [stepEv] at h2
      rw [h1] at h2
      exact Bool.noConfusion h2

/-- Witness for C1: the reset characterization applied at a Deposit-step
state whose pending auto stake fails. -/
theorem autoChain_once_per_confirmation_witness :
    (({ step := .deposit, stakeAmountWei := 5, hasTriggeredStaking := true,
        balances := some ⟨10, 10, 0⟩, approvalSuccess := true, stakingSuccess := false,
        pendingAutoStake := true, autoStakeSubmits := 1, approvalConfirms := 1 } :
          FlowState).step = .input ∧
      FlowEv.autoStakeResolved false = .resetEffect) ∨
    FlowEv.autoStakeResolved false = .autoStakeResolved false :=
  autoChain_once_per_confirmation.2
    { step := .deposit, stakeAmountWei := 5, hasTriggeredStaking := true,
      balances := some ⟨10, 10, 0⟩, approvalSuccess := true, stakingSuccess := false,
      pendingAutoStake := true, autoStakeSubmits := 1, approvalConfirms := 1 }
    (.autoStakeResolved false) (by decide) (by decide)

/-! ## C2: the observed step sequences -/

/-- Invariant for the "never Approving" half of C2: the stored amount stays
within the allowance `A`, every known balances prop carries allowance `A`,
and the step is not Approving. -/
def c2Inv (A : ℕ) (s : FlowState) : Prop :=
  s.stakeAmountWei ≤ A ∧ (∀ b, s.balances = some b → b.allowance = A) ∧
    s.step ≠ .approve

theorem c2Inv_step (A : ℕ) (s : FlowState) (e : FlowEv) (h : c2Inv A s)
    (hev : ∀ n, e = .amountChange n → n ≤ A)
    (hev2 : ∀ ob b, e = .balancesRefresh ob → ob = some b → b.allowance = A) :
    c2Inv A (stepEv s e) := by
  obtain ⟨h1, h2, h3⟩ := h
  cases e with
  | amountChange n =>
    simp only [stepEv]
    split_ifs with hstep
    · exact ⟨hev n rfl, h2, by dsimp only; rw [hstep]; intro hh; cases hh⟩
    · exact ⟨h1, h2, h3⟩
  | proceed =>
    simp only [stepEv]
    split_ifs with hstep
    · cases hb : s.balances with
      | none => exact ⟨h1, h2, h3⟩
      | some b =>
        have hA : b.allowance = A := h2 b hb
        dsimp only
        split_ifs with hv hap
        · exact ⟨h1, h2, h3⟩
        · exact absurd hap (by omega)
        · refine ⟨h1, ?_, by dsimp only; intro hh; cases hh⟩
          intro b2 hb2
          dsimp only at hb2
          exact h2 b2 (hb ▸ hb2)
    · exact ⟨h1, h2, h3⟩
  | approvalConfirmed =>
    simp only [stepEv]
    split_ifs
    · exact ⟨h1, h2, h3⟩
    · exact ⟨h1, h2, h3⟩
  | autoChainEffect =>
    simp only [stepEv]
    rw [if_neg (fun hg => h3 hg.2.1)]
    exact ⟨h1, h2, h3⟩
  | autoStakeResolved ok =>
    simp only [stepEv]
    split_ifs <;> exact ⟨h1, h2, h3⟩
  | stakingConfirmed =>
    exact ⟨h1, h2, h3⟩
  | stakeSuccessEffect =>
    simp only [stepEv]
    split_ifs
    · exact ⟨h1, h2, by dsimp only; intro hh; cases hh⟩
    · exact ⟨h1, h2, h3⟩
  | resetEffect =>
    simp only [stepEv]
    split_ifs with hstep
    · exact ⟨h1, h2, by dsimp only; rw [hstep]; intro hh; cases hh⟩
    · exact ⟨h1, h2, h3⟩
  | backToInput =>
    simp only [stepEv]
    split_ifs
    · exact ⟨h1, h2, by dsimp only; intro hh; cases hh⟩
    · exact ⟨h1, h2, h3⟩
  | balancesRefresh ob =>
    simp only [stepEv]
    refine ⟨h1, ?_, h3⟩
    intro b hb
    dsimp only at hb
    exact hev2 ob b rfl hb

theorem c2Inv_not_approve_trace (A : ℕ) (s : FlowState) (evs : List FlowEv)
    (h : c2Inv A s)
    (hall1 : ∀ n, FlowEv.amountChange n ∈ evs → n ≤ A)
    (hall2 : ∀ ob b, FlowEv.balancesRefresh ob ∈ evs → ob = some b → b.allowance = A) :
    StakeStep.approve ∉ stepsTrace s evs := by
  induction evs generalizing s with
  | nil =>
    intro hmem
    exact h.2.2 (List.mem_singleton.mp hmem).symm
  | cons e es ih =>
    intro hmem
    rcases List.mem_cons.mp hmem with heq | hmem2
    · exact h.2.2 heq.symm
    · refine ih (stepEv s e) ?_ ?_ ?_ hmem2
      · refine c2Inv_step A s e h ?_ ?_
        · intro n hn
          exact hall1 n (hn ▸ List.mem_cons_self e es)
        · intro ob b hob hsome
          exact hall2 ob b (hob ▸ List.mem_cons_self e es) hsome
      · intro n hn
        exact hall1 n (List.mem_cons.mpr (Or.inr hn))
      · intro ob b hob hsome
        exact hall2 ob b (List.mem_cons.mpr (Or.inr hob)) hsome

/-- Claim C2. For a session started with a positive valid amount: with zero
allowance the distinct observed steps of the happy path are exactly
Input → Approving → Executing(deposit) → Success; with allowance at least
the amount they are exactly Input → Executing → Success; and whenever the
allowance covers every entered amount, the Approving step is never observed
in any trace whatsoever. -/
theorem stake_step_sequences :
    (∀ B a : ℕ, 0 < a → a ≤ B →
      dedupConsec (stepsTrace (initFlow (some ⟨B, B, 0⟩))
        [.amountChange a, .proceed, .approvalConfirmed, .autoChainEffect,
          .autoStakeResolved true, .stakingConfirmed, .stakeSuccessEffect]) =
        [.input, .approve, .deposit, .success]) ∧
    (∀ B A a : ℕ, 0 < a → a ≤ B → a ≤ A →
      dedupConsec (stepsTrace (initFlow (some ⟨B, B, A⟩))
        [.amountChange a, .proceed, .stakingConfirmed, .stakeSuccessEffect]) =
        [.input, .deposit, .success]) ∧
    (∀ (A B : ℕ) (evs : List FlowEv),
      (∀ n, FlowEv.amountChange n ∈ evs → n ≤ A) →
      (∀ ob b, FlowEv.balancesRefresh ob ∈ evs → ob = some b → b.allowance = A) →
      StakeStep.approve ∉ stepsTrace (initFlow (some ⟨B, B, A⟩)) evs) := by
  refine ⟨?_, ?_, ?_⟩
  · intro B a ha hab
    have hv : ¬(a = 0 ∨ B < a) := by omega
    have e1 : stepEv (initFlow (some ⟨B, B, 0⟩)) (.amountChange a) =
        (⟨.input, a, false, some ⟨B, B, 0⟩, false, false, false, 0, 0⟩ : FlowState) := by
      simp [stepEv, initFlow]
    have e2 : stepEv (⟨.input, a, false, some ⟨B, B, 0⟩, false, false, false, 0, 0⟩ : FlowState)
        .proceed =
        (⟨.approve, a, false, some ⟨B, B, 0⟩, false, false, false, 0, 0⟩ : FlowState) := by
      simp [stepEv, hv, ha]
    have e3 : stepEv (⟨.approve, a, false, some ⟨B, B, 0⟩, false, false, false, 0, 0⟩ : FlowState)
        .approvalConfirmed =
        (⟨.approve, a, false, some ⟨B, B, 0⟩, true, false, false, 0, 1⟩ : FlowState) := by
      simp [stepEv]
    have e4 : stepEv (⟨.approve, a, false, some ⟨B, B, 0⟩, true, false, false, 0, 1⟩ : FlowState)
        .autoChainEffect =
        (⟨.deposit, a, true, some ⟨B, B, 0⟩, true, false, true, 1, 1⟩ : FlowState) := by
      simp [stepEv, ha]
    have e5 : stepEv (⟨.deposit, a, true, some ⟨B, B, 0⟩, true, false, true, 1, 1⟩ : FlowState)
        (.autoStakeResolved true) =
        (⟨.deposit, a, true, some ⟨B, B, 0⟩, true, false, false, 1, 1⟩ : FlowState) := by
      simp [stepEv]
    have e6 : stepEv (⟨.deposit, a, true, some ⟨B, B, 0⟩, true, false, false, 1, 1⟩ : FlowState)
        .stakingConfirmed =
        (⟨.deposit, a, true, some ⟨B, B, 0⟩, true, true, false, 1, 1⟩ : FlowState) := by
      simp [stepEv]
    have e7 : stepEv (⟨.deposit, a, true, some ⟨B, B, 0⟩, true, true, false, 1, 1⟩ : FlowState)
        .stakeSuccessEffect =
        (⟨.success, a, true, some ⟨B, B, 0⟩, true, true, false, 1, 1⟩ : FlowState) := by
      simp [stepEv]
    simp only [stepsTrace, e1, e2, e3, e4, e5, e6, e7]
    dsimp only [initFlow]
    rfl
  · intro B A a ha hab haA
    have hv : ¬(a = 0 ∨ B < a) := by omega
    have hap : ¬(A < a) := by omega
    have e1 : stepEv (initFlow (some ⟨B, B, A⟩)) (.amountChange a) =
        (⟨.input, a, false, some ⟨B, B, A⟩, false, false, false, 0, 0⟩ : FlowState) := by
      simp [stepEv, initFlow]
    have e2 : stepEv (⟨.input, a, false, some ⟨B, B, A⟩, false, false, false, 0, 0⟩ : FlowState)
        .proceed =
        (⟨.deposit, a, false, some ⟨B, B, A⟩, false, false, false, 0, 0⟩ : FlowState) := by
      simp [stepEv, hv, hap]
    have e3 : stepEv (⟨.deposit, a, false, some ⟨B, B, A⟩, false, false, false, 0, 0⟩ : FlowState)
        .stakingConfirmed =
        (⟨.deposit, a, false, some ⟨B, B, A⟩, false, true, false, 0, 0⟩ : FlowState) := by
      simp [stepEv]
    have e4 : stepEv (⟨.deposit, a, false, some ⟨B, B, A⟩, false, true, false, 0, 0⟩ : FlowState)
        .stakeSuccessEffect =
        (⟨.success, a, false, some ⟨B, B, A⟩, false, true, false, 0, 0⟩ : FlowState) := by
      simp [stepEv]
    simp only [stepsTrace, e1, e2, e3, e4]
    dsimp only [initFlow]
    rfl
  · intro A B evs hall1 hall2
    refine c2Inv_not_approve_trace A _ evs ?_ hall1 hall2
    refine ⟨Nat.zero_le A, ?_, ?_⟩
    · intro b hb
      have : some (⟨B, B, A⟩ : UserBalances) = some b := hb
      injection this with hbb
      rw [← hbb]
    · intro hh
      cases hh

/-- Witness for C2 at `B = 10`, `A = 7`, `a = 5` and a trace with an amount
edit and a balances refresh. -/
theorem stake_step_sequences_witness :
    dedupConsec (stepsTrace (initFlow (some ⟨10, 10, 0⟩))
      [.amountChange 5, .proceed, .approvalConfirmed, .autoChainEffect,
        .autoStakeResolved true, .stakingConfirmed, .stakeSuccessEffect]) =
      [.input, .approve, .deposit, .success] ∧
    dedupConsec (stepsTrace (initFlow (some ⟨10, 10, 7⟩))
      [.amountChange 5, .proceed, .stakingConfirmed, .stakeSuccessEffect]) =
      [.input, .deposit, .success] ∧
    StakeStep.approve ∉ stepsTrace (initFlow (some ⟨10, 10, 7⟩))
      [.amountChange 5, .balancesRefresh (some ⟨9, 9, 7⟩), .proceed, .stakingConfirmed] :=
  ⟨stake_step_sequences.1 10 5 (by decide) (by decide),
    stake_step_sequences.2.1 10 7 5 (by decide) (by decide) (by decide),
    stake_step_sequences.2.2 7 10
      [.amountChange 5, .balancesRefresh (some ⟨9, 9, 7⟩), .proceed, .stakingConfirmed]
      (by
        intro n hn
        simp only [List.mem_cons, List.not_mem_nil, or_false] at hn
        rcases hn with h | h | h | h
        · cases h
          omega
        · cases h
        · cases h
        · cases h)
      (by
        intro ob b hob hsome
        simp only [List.mem_cons, List.not_mem_nil, or_false] at hob
        rcases hob with h | h | h | h
        · cases h
        · cases h
          cases hsome
          rfl
        · cases h
        · cases h)⟩
